import Mathlib

/-! A TTL cache table (`cacheitem.go`, `cachetable.go`)

Shallow embedding of the cache engine: the entry type `CacheItem`, the table
type `CacheTable`, and the table's operations, with the two kinds of lock
(`sync.RWMutex` on the table and on every entry) kept as explicit state.

Conventions of the embedding.

* One goroutine runs the operations.  A `Lock` on a mutex that is already held
  can then never be granted: the operation stops there, which the embedding
  records as `Outcome.stuck Fault.deadlock` together with the table as it is
  at that moment.
* `time.Now()` is an argument of every operation that reads the clock.
* `map[interface{}]*CacheItem` is an association list; the order of the list
  stands for the order in which `range` happens to visit the map, so that a
  statement proved for every list holds for every iteration order.
* Function values (`loadData`, `addedItem`, `aboutToDeleteItem`,
  `aboutToExpire`) are stored as handles; `FuncEnv` gives every handle its
  behaviour as a transformer of the table, so that a callback may re-enter
  the table.
* An entry is a pointer in the source.  The embedding holds entries by value
  and keeps the copy in the map and the copy an operation works on in step
  wherever the operation itself writes to the entry (`KeepAlive` in `Value`,
  `r.RLock()` in `deleteInternal`).  `item.Lock()` directly followed by
  `item.Unlock()` is a test that the entry's lock can be taken.
* `table.log` only writes to the logger and is left out.
-/

namespace Cache

/-! ## Machine integers and time -/

/-- Keys of the map (`interface{}` values usable as map keys), as codes. -/
abbrev Key := Nat

/-- Payloads (`interface{}`), as codes. -/
abbrev Data := Nat

/-- An instant (`time.Time`), in nanoseconds. -/
abbrev Time := Int

/-- A `time.Duration`: an `int64` count of nanoseconds. -/
abbrev Duration := Int

def minInt64 : Int := -9223372036854775808

def maxInt64 : Int := 9223372036854775807

/-- Two's complement wrap-around of `int64` arithmetic. -/
def wrap64 (x : Int) : Int := (x + 9223372036854775808) % 18446744073709551616 - 9223372036854775808

/-- The library's `t.Sub(u)`: the difference `t - u`, saturated to the range
of `Duration`. -/
def Time.Sub (t u : Time) : Duration :=
  if t - u < minInt64 then minInt64
  else if maxInt64 < t - u then maxInt64
  else t - u

/-! ## Locks -/

/-- State of a `sync.RWMutex`: whether the write lock is held, and how many
read locks are held. -/
structure RWMutex where
  w : Bool
  r : Nat
deriving DecidableEq, Repr

/-- What stops an operation for good. -/
inductive Fault where
  /-- a lock is requested that can never be granted -/
  | deadlock
  /-- `Unlock`/`RUnlock` of a mutex that is not locked (a fatal runtime error) -/
  | unlockOfUnlocked
  /-- call of a nil function value -/
  | nilFunc
deriving DecidableEq, Repr

/-- The mutex with no lock held. -/
def RWMutex.free : RWMutex := ⟨false, 0⟩

/-- `Lock()`: granted only when neither the write lock nor a read lock is held. -/
def RWMutex.Lock (m : RWMutex) : Option RWMutex :=
  if m.w = false ∧ m.r = 0 then some ⟨true, 0⟩ else none

/-- `Unlock()`: legal only when the write lock is held. -/
def RWMutex.Unlock (m : RWMutex) : Option RWMutex :=
  if m.w = true then some ⟨false, m.r⟩ else none

/-- `RLock()`: granted when the write lock is not held. -/
def RWMutex.RLock (m : RWMutex) : Option RWMutex :=
  if m.w = false then some ⟨false, m.r + 1⟩ else none

/-- `RUnlock()`: legal only when a read lock is held. -/
def RWMutex.RUnlock (m : RWMutex) : Option RWMutex :=
  if 0 < m.r then some ⟨m.w, m.r - 1⟩ else none

/-! ## Entries (`cacheitem.go`) -/

/-- The struct `CacheItem`.  `aboutToExpire` is `none` for a nil function and
`some h` for the function with handle `h`. -/
structure CacheItem where
  mu : RWMutex
  key : Key
  data : Data
  lifeSpan : Duration
  createdOn : Time
  accessedON : Time
  accessCount : Int
  aboutToExpire : Option Nat
deriving DecidableEq, Repr

/-- `NewCacheItem(key, lifeSpan, data)`, with `t` the reading of `time.Now()`. -/
def NewCacheItem (t : Time) (key : Key) (lifeSpan : Duration) (data : Data) : CacheItem :=
  { mu := RWMutex.free
    key := key
    data := data
    lifeSpan := lifeSpan
    createdOn := t
    accessedON := t
    aboutToExpire := none
    accessCount := 0 }

/-- `item.KeepAlive()`, with `now` the reading of `time.Now()`: under the
entry's lock, stamp the access time and count the access.  `none` when the
entry's lock cannot be taken. -/
def CacheItem.KeepAlive (now : Time) (item : CacheItem) : Option CacheItem :=
  match item.mu.Lock with
  | none => none
  | some _ =>
    some { item with accessedON := now, accessCount := wrap64 (item.accessCount + 1) }

def CacheItem.LifeSpan (item : CacheItem) : Duration := item.lifeSpan

def CacheItem.AccessedOn (item : CacheItem) : Time := item.accessedON

def CacheItem.AccessCount (item : CacheItem) : Int := item.accessCount

def CacheItem.Key (item : CacheItem) : Key := item.key

def CacheItem.Data (item : CacheItem) : Data := item.data

/-- `item.SetAboutToExpireCallback(fn)`. -/
def CacheItem.SetAboutToExpireCallback (fn : Option Nat) (item : CacheItem) : Option CacheItem :=
  match item.mu.Lock with
  | none => none
  | some _ => some { item with aboutToExpire := fn }

/-! ## The map of entries -/

/-- The map `items`. -/
abbrev Items := List (Key × CacheItem)

/-- `items[k]` (with the `ok` flag as `Option`). -/
def lookup (k : Key) : Items → Option CacheItem
  | [] => none
  | (k', v) :: rest => if k' = k then some v else lookup k rest

/-- `items[k] = v`. -/
def store (k : Key) (v : CacheItem) : Items → Items
  | [] => [(k, v)]
  | (k', v') :: rest => if k' = k then (k, v) :: rest else (k', v') :: store k v rest

/-- `delete(items, k)`. -/
def remove (k : Key) : Items → Items
  | [] => []
  | (k', v') :: rest => if k' = k then remove k rest else (k', v') :: remove k rest

/-- The keys of the map, in iteration order. -/
def keys (m : Items) : List Key := m.map Prod.fst

/-! ## The table (`cachetable.go`) -/

/-- A `*time.Timer` made by `time.AfterFunc(d, f)`: its delay and whether it
is still pending (`Stop()` clears `pending`). -/
structure Timer where
  d : Duration
  pending : Bool
deriving DecidableEq, Repr

def Timer.Stop (tm : Timer) : Timer := { tm with pending := false }

/-- The struct `CacheTable` (without the logger). -/
structure CacheTable where
  mu : RWMutex
  name : String
  items : Items
  cleanupTimer : Option Timer
  cleanupInterval : Duration
  loadData : Option Nat
  addedItem : Option Nat
  aboutToDeleteItem : Option Nat
deriving DecidableEq, Repr

/-- The error values returned by `Value` and `Delete`. -/
inductive Error where
  | ErrKeyNotFound
  | ErrKeyNotFoundOrLoadable
deriving DecidableEq, Repr

/-- How a call ends: it returns `a` and leaves the table `t`, or it stops for
good at table `t`. -/
inductive Outcome (α : Type) where
  | done (a : α) (t : CacheTable)
  | stuck (f : Fault) (t : CacheTable)
deriving DecidableEq, Repr

/-- The table a call leaves behind. -/
def Outcome.table {α : Type} : Outcome α → CacheTable
  | .done _ t => t
  | .stuck _ t => t

/-- Sequencing: run `f` on what `o` returned, unless `o` stopped. -/
def Outcome.bind {α β : Type} (o : Outcome α) (f : α → CacheTable → Outcome β) : Outcome β :=
  match o with
  | .done a t => f a t
  | .stuck e t => .stuck e t

/-- The behaviour of the function values a table and its entries can hold. -/
structure FuncEnv where
  loadData : Nat → Key → CacheTable → Outcome (Option CacheItem)
  addedItem : Nat → CacheItem → CacheTable → Outcome Unit
  aboutToDeleteItem : Nat → CacheItem → CacheTable → Outcome Unit
  aboutToExpire : Nat → Key → CacheTable → Outcome Unit

/-- `table.Lock()`. -/
def CacheTable.Lock (t : CacheTable) : Outcome Unit :=
  match t.mu.Lock with
  | some m => .done () { t with mu := m }
  | none => .stuck .deadlock t

/-- `table.Unlock()`. -/
def CacheTable.Unlock (t : CacheTable) : Outcome Unit :=
  match t.mu.Unlock with
  | some m => .done () { t with mu := m }
  | none => .stuck .unlockOfUnlocked t

/-- `table.RLock()`. -/
def CacheTable.RLock (t : CacheTable) : Outcome Unit :=
  match t.mu.RLock with
  | some m => .done () { t with mu := m }
  | none => .stuck .deadlock t

/-- `table.RUnlock()`. -/
def CacheTable.RUnlock (t : CacheTable) : Outcome Unit :=
  match t.mu.RUnlock with
  | some m => .done () { t with mu := m }
  | none => .stuck .unlockOfUnlocked t

/-- `table.Count()`. -/
def Count (t : CacheTable) : Outcome Nat :=
  t.Lock.bind fun _ t1 =>
  let n := t1.items.length
  t1.Unlock.bind fun _ t2 => .done n t2

/-- `table.SetAddedItemCallback(f)`. -/
def SetAddedItemCallback (f : Option Nat) (t : CacheTable) : Outcome Unit :=
  t.Lock.bind fun _ t1 =>
  let t2 := { t1 with addedItem := f }
  t2.Unlock

/-- `table.deleteInternal(key)`; entered with the table lock held. -/
def deleteInternal (env : FuncEnv) (key : Key) (t : CacheTable) :
    Outcome (Option CacheItem × Option Error) :=
  match lookup key t.items with
  | none => .done (none, some .ErrKeyNotFound) t
  | some r =>
    let aboutToDeleteItem := t.aboutToDeleteItem
    t.Unlock.bind fun _ t1 =>
    (match aboutToDeleteItem with
      | none => Outcome.done () t1
      | some h => env.aboutToDeleteItem h r t1).bind fun _ t2 =>
    -- r.RLock(), which nothing releases
    match r.mu.RLock with
    | none => .stuck .deadlock t2
    | some m =>
      let r1 := { r with mu := m }
      let t3 := if lookup key t2.items = some r then { t2 with items := store key r1 t2.items } else t2
      (match r.aboutToExpire with
        | none => Outcome.done () t3
        | some h => env.aboutToExpire h key t3).bind fun _ t4 =>
      t4.Lock.bind fun _ t5 =>
      .done (some r1, none) { t5 with items := remove key t5.items }

/-- `table.Delete(key)`. -/
def Delete (env : FuncEnv) (key : Key) (t : CacheTable) :
    Outcome (Option CacheItem × Option Error) :=
  t.Lock.bind fun _ t1 =>
  (deleteInternal env key t1).bind fun res t2 =>
  t2.Unlock.bind fun _ t3 => .done res t3

/-- The loop of `expirationCheck` over the keys the `range` visits, carrying
`smallesDuration`.  A key that is no longer in the map when it is reached is
not visited. -/
def sweepLoop (env : FuncEnv) (now : Time) :
    List Key → Duration → CacheTable → Outcome Duration
  | [], smallesDuration, t => .done smallesDuration t
  | key :: rest, smallesDuration, t =>
    match lookup key t.items with
    | none => sweepLoop env now rest smallesDuration t
    | some item =>
      -- item.Lock(); read lifeSpan, createdOn; item.Unlock()
      match item.mu.Lock with
      | none => .stuck .deadlock t
      | some _ =>
        let lifeSpan := item.lifeSpan
        let createdOn := item.createdOn
        if lifeSpan = 0 then sweepLoop env now rest smallesDuration t
        else if Time.Sub now createdOn ≥ lifeSpan then
          (Delete env key t).bind fun _ t1 => sweepLoop env now rest smallesDuration t1
        else if smallesDuration = 0 ∨ wrap64 (lifeSpan - Time.Sub now createdOn) < smallesDuration then
          sweepLoop env now rest (wrap64 (lifeSpan - Time.Sub now createdOn)) t
        else sweepLoop env now rest smallesDuration t

/-- `table.expirationCheck()`, with `now` the reading of `time.Now()`. -/
def expirationCheck (env : FuncEnv) (now : Time) (t : CacheTable) : Outcome Unit :=
  t.Lock.bind fun _ t1 =>
  let t2 := { t1 with cleanupTimer := t1.cleanupTimer.map Timer.Stop }
  (sweepLoop env now (keys t2.items) 0 t2).bind fun smallesDuration t3 =>
  let t4 := { t3 with cleanupInterval := smallesDuration }
  let t5 := if smallesDuration > 0
    then { t4 with cleanupTimer := some ⟨smallesDuration, true⟩ } else t4
  t5.Unlock

/-- `table.addInternal(item)`; entered with the table lock held.  `sweepNow`
is the clock reading of the sweep it may start. -/
def addInternal (env : FuncEnv) (sweepNow : Time) (item : CacheItem) (t : CacheTable) :
    Outcome Unit :=
  let t1 := { t with items := store item.key item t.items }
  let exDur := t1.cleanupInterval
  let addedItem := t1.addedItem
  t1.Unlock.bind fun _ t2 =>
  (match addedItem with
    | none => Outcome.done () t2
    | some h => env.addedItem h item t2).bind fun _ t3 =>
  if item.lifeSpan > 0 ∧ (exDur = 0 ∨ item.lifeSpan < exDur) then
    expirationCheck env sweepNow t3
  else .done () t3

/-- `table.Add(key, lifeSpan, data)`; `now` is the clock reading of
`NewCacheItem`, `sweepNow` that of the sweep `addInternal` may start. -/
def Add (env : FuncEnv) (now sweepNow : Time) (key : Key) (lifeSpan : Duration) (data : Data)
    (t : CacheTable) : Outcome CacheItem :=
  let item := NewCacheItem now key lifeSpan data
  t.Lock.bind fun _ t1 =>
  (addInternal env sweepNow item t1).bind fun _ t2 => .done item t2

/-- `table.Exists(key)`. -/
def Exists (key : Key) (t : CacheTable) : Outcome Bool :=
  t.RLock.bind fun _ t1 =>
  let ok := (lookup key t1.items).isSome
  t1.RUnlock.bind fun _ t2 => .done ok t2

/-- `table.NotFoundAdd(key, lifeSpan, data)`. -/
def NotFoundAdd (env : FuncEnv) (now : Time) (key : Key) (lifeSpan : Duration) (data : Data)
    (t : CacheTable) : Outcome Bool :=
  t.Lock.bind fun _ t1 =>
  if (lookup key t1.items).isSome then
    t1.Unlock.bind fun _ t2 => .done false t2
  else
    let item := NewCacheItem now key lifeSpan data
    (match t1.addedItem with
      | none => Outcome.stuck .nilFunc t1
      | some h => env.addedItem h item t1).bind fun _ t2 =>
    .done true t2

/-- `table.Value(key)`; `now` is the clock reading of `KeepAlive` or of the
`Add` of a loaded entry, `sweepNow` that of the sweep this `Add` may start. -/
def Value (env : FuncEnv) (now sweepNow : Time) (key : Key) (t : CacheTable) :
    Outcome (Option CacheItem × Option Error) :=
  t.RLock.bind fun _ t1 =>
  let r := lookup key t1.items
  let loadData := t1.loadData
  t1.RUnlock.bind fun _ t2 =>
  match r with
  | some r =>
    match r.KeepAlive now with
    | none => .stuck .deadlock t2
    | some r1 => .done (some r1, none) { t2 with items := store key r1 t2.items }
  | none =>
    match loadData with
    | some h =>
      (env.loadData h key t2).bind fun item t3 =>
      match item with
      | some item =>
        (Add env now sweepNow key item.lifeSpan item.data t3).bind fun _ t4 =>
        .done (some item, none) t4
      | none => .done (none, some .ErrKeyNotFoundOrLoadable) t3
    | none => .done (none, some .ErrKeyNotFound) t2

/-- `table.Flush()`. -/
def Flush (t : CacheTable) : Outcome Unit :=
  t.Lock.bind fun _ t1 =>
  let t2 := { t1 with items := [] }
  let t3 := { t2 with cleanupInterval := 0 }
  let t4 := { t3 with cleanupTimer := t3.cleanupTimer.map Timer.Stop }
  t4.Unlock

/-- The struct `CacheItemPair`. -/
structure CacheItemPair where
  key : Key
  AccessCount : Int
deriving DecidableEq, Repr

/-- The slice type `CacheItemPairList`. -/
abbrev CacheItemPairList := List CacheItemPair

/-- `p.Less(i, j)`, on the elements at `i` and `j`. -/
def CacheItemPairList.Less (a b : CacheItemPair) : Prop := a.AccessCount > b.AccessCount

instance (a b : CacheItemPair) : Decidable (CacheItemPairList.Less a b) := by
  unfold CacheItemPairList.Less; infer_instance

/-- The second loop of `MostAccessed`: walk the sorted pairs, stop once `c`
reaches `count`, and append the entry found under each key. -/
def collect (items : Items) (count : Int) : CacheItemPairList → Int → List CacheItem → List CacheItem
  | [], _, r => r
  | v :: rest, c, r =>
    if c ≥ count then r
    else
      match lookup v.key items with
      | some item => collect items count rest (c + 1) (r ++ [item])
      | none => collect items count rest (c + 1) r

/-- `table.MostAccessed(count)`.  `sortSort` stands for the library's
`sort.Sort` on a `CacheItemPairList`. -/
def MostAccessed (sortSort : CacheItemPairList → CacheItemPairList) (count : Int)
    (t : CacheTable) : Outcome (List CacheItem) :=
  t.Lock.bind fun _ t1 =>
  let p : CacheItemPairList := t1.items.map fun kv => ⟨kv.1, kv.2.accessCount⟩
  let p := sortSort p
  let r := collect t1.items count p 0 []
  t1.Unlock.bind fun _ t2 => .done r t2

/-! ## Specification vocabulary -/

/-- An entry has outlived its lifeSpan at clock reading `now`: its lifeSpan is
not zero and `now.Sub(createdOn) >= lifeSpan`. -/
def expired (now : Time) (item : CacheItem) : Prop :=
  item.lifeSpan ≠ 0 ∧ Time.Sub now item.createdOn ≥ item.lifeSpan

instance (now : Time) (item : CacheItem) : Decidable (expired now item) := by
  unfold expired; infer_instance

/-- No callback is configured on the table or on any of its entries. -/
def CacheTable.NoCallbacks (t : CacheTable) : Prop :=
  t.loadData = none ∧ t.addedItem = none ∧ t.aboutToDeleteItem = none ∧
    ∀ p ∈ t.items, p.2.aboutToExpire = none

/-- No lock is held: neither the table's nor that of any entry. -/
def CacheTable.Quiet (t : CacheTable) : Prop :=
  t.mu = RWMutex.free ∧ ∀ p ∈ t.items, p.2.mu = RWMutex.free

/-! ## Sample inputs -/

/-- A function environment in which every callback returns at once and the
loader yields nothing. -/
def idleEnv : FuncEnv :=
  { loadData := fun _ _ t => .done none t
    addedItem := fun _ _ t => .done () t
    aboutToDeleteItem := fun _ _ t => .done () t
    aboutToExpire := fun _ _ t => .done () t }

/-- A fresh table: no entry, no timer, no callback. -/
def emptyTable : CacheTable :=
  { mu := RWMutex.free
    name := "myCache"
    items := []
    cleanupTimer := none
    cleanupInterval := 0
    loadData := none
    addedItem := none
    aboutToDeleteItem := none }

/-- The table after `Add(1, 50ms, 7)` at time 0 on a fresh table. -/
def oneEntryTable : CacheTable :=
  { emptyTable with
    items := [(1, NewCacheItem 0 1 50000000 7)]
    cleanupTimer := some ⟨50000000, true⟩
    cleanupInterval := 50000000 }

/-- The environment of `TestAdd` and `TestFlush`: the addedItem callback
stores the entry in the map under its key (`cache.items[item.key] = item`);
the loader with handle 0 builds an entry at time 3 with lifeSpan 0 and data 7. -/
def testEnv : FuncEnv :=
  { loadData := fun _ key t => .done (some (NewCacheItem 3 key 0 7)) t
    addedItem := fun _ item t => .done () { t with items := store item.key item t.items }
    aboutToDeleteItem := fun _ _ t => .done () t
    aboutToExpire := fun _ _ t => .done () t }

/-- The table of `TestAdd` after `Add(1, 20s, 7)` at time 0, with the test's
addedItem callback configured. -/
def testAddTable : CacheTable :=
  (Add testEnv 0 0 1 20000000000 7 { emptyTable with addedItem := some 0 }).table

/-- A fresh table with a loader configured. -/
def loaderTable : CacheTable := { emptyTable with loadData := some 0 }

/-! ## Sequences of `Add` -/

/-- The arguments of one call of `Add`, with its two clock readings. -/
structure AddCall where
  now : Time
  sweepNow : Time
  key : Key
  lifeSpan : Duration
  data : Data
deriving DecidableEq, Repr

/-- The entry that the call constructs. -/
def AddCall.entry (c : AddCall) : CacheItem := NewCacheItem c.now c.key c.lifeSpan c.data

/-- A sequence of `Add` calls, run one after the other. -/
def addAll (env : FuncEnv) : List AddCall → CacheTable → Outcome Unit
  | [], t => .done () t
  | c :: cs, t =>
    (Add env c.now c.sweepNow c.key c.lifeSpan c.data t).bind fun _ t1 => addAll env cs t1

/-- The last call in the sequence that adds key `k`. -/
def lastAdd (k : Key) : List AddCall → Option AddCall
  | [] => none
  | c :: cs =>
    match lastAdd k cs with
    | some d => some d
    | none => if c.key = k then some c else none

/-- No entry expires during the sequence, the calls in `pre` having been made:
at the clock reading of the sweep of each call, none of the entries then in
the table (for each key, the one built by the last call so far) is expired. -/
def noExpiryFrom (pre : List AddCall) : List AddCall → Prop
  | [] => True
  | c :: post =>
    (∀ d ∈ pre ++ [c], lastAdd d.key (pre ++ [c]) = some d → ¬ expired c.sweepNow d.entry) ∧
      noExpiryFrom (pre ++ [c]) post

/-- No entry expires during the sequence of calls. -/
def NoExpiry (cs : List AddCall) : Prop := noExpiryFrom [] cs

/-- Three calls of `Add` with distinct keys and a lifeSpan of 20s, as in
`TestCount`, followed by a second `Add` for the first key. -/
def sampleCalls : List AddCall :=
  [⟨0, 0, 10, 20000000000, 7⟩, ⟨1, 1, 11, 20000000000, 7⟩, ⟨2, 2, 12, 20000000000, 7⟩,
   ⟨3, 3, 10, 0, 8⟩]

/-- A function environment in which every callback, and the loader, stops
for good as soon as it is called. -/
def trapEnv : FuncEnv :=
  { loadData := fun _ _ t => .stuck .nilFunc t
    addedItem := fun _ _ t => .stuck .nilFunc t
    aboutToDeleteItem := fun _ _ t => .stuck .nilFunc t
    aboutToExpire := fun _ _ t => .stuck .nilFunc t }

/-- A table with two entries, both callbacks of the delete path configured
(on the table and on the entry of key 1). -/
def twoEntryTable : CacheTable :=
  { emptyTable with
    items := [(1, { NewCacheItem 0 1 50000000 7 with aboutToExpire := some 0 }),
              (2, NewCacheItem 0 2 0 8)]
    cleanupTimer := some ⟨50000000, true⟩
    cleanupInterval := 50000000
    aboutToDeleteItem := some 0 }

/-- The table of `TestFlush` after `Add(1, 100s, 7)` at time 0, with the
test's addedItem callback configured. -/
def testFlushTable : CacheTable :=
  (Add testEnv 0 0 1 100000000000 7 { emptyTable with addedItem := some 0 }).table

/-- A table whose four entries have been accessed 5, 1, 9 and 3 times. -/
def rankedTable : CacheTable :=
  { emptyTable with
    items := [(1, { NewCacheItem 0 1 0 7 with accessCount := 5 }),
              (2, { NewCacheItem 0 2 0 7 with accessCount := 1 }),
              (3, { NewCacheItem 0 3 0 7 with accessCount := 9 }),
              (4, { NewCacheItem 0 4 0 7 with accessCount := 3 })] }

/-- A sorting function that meets the contract of `sort.Sort` for the order
`Less` of `CacheItemPairList`: insertion sort by decreasing AccessCount. -/
def insertionSortPairs (p : CacheItemPairList) : CacheItemPairList :=
  List.insertionSort (fun a b => b.AccessCount ≤ a.AccessCount) p

/-! ## `Foreach` -/

/-- The loop of `Foreach` over the keys the `range` visits. -/
def foreachLoop (trans : Key → CacheItem → CacheTable → Outcome Unit) :
    List Key → CacheTable → Outcome Unit
  | [], t => .done () t
  | k :: rest, t =>
    match lookup k t.items with
    | none => foreachLoop trans rest t
    | some v => (trans k v t).bind fun _ t1 => foreachLoop trans rest t1

/-- The method `table.Foreach(trans)`. -/
def Foreach (trans : Key → CacheItem → CacheTable → Outcome Unit) (t : CacheTable) :
    Outcome Unit :=
  t.Lock.bind fun _ t1 =>
  (foreachLoop trans (keys t1.items) t1).bind fun _ t2 => t2.Unlock

/-! ## More sample inputs -/

/-- A function environment whose callbacks re-enter the table: each of them
reads `Count()`. -/
def reentrantEnv : FuncEnv :=
  { loadData := fun _ _ t => (Count t).bind fun _ t1 => .done none t1
    addedItem := fun _ _ t => (Count t).bind fun _ t1 => .done () t1
    aboutToDeleteItem := fun _ _ t => (Count t).bind fun _ t1 => .done () t1
    aboutToExpire := fun _ _ t => (Count t).bind fun _ t1 => .done () t1 }

/-- A fresh table with an addedItem callback configured. -/
def callbackTable : CacheTable := { emptyTable with addedItem := some 0 }

/-! ## Accesses -/

/-- The entry with its access metadata (accessedON, accessCount) blanked. -/
def CacheItem.forgetAccess (item : CacheItem) : CacheItem :=
  { item with accessedON := 0, accessCount := 0 }

/-- The table with the access metadata of every entry blanked. -/
def CacheTable.forgetAccess (t : CacheTable) : CacheTable :=
  { t with items := t.items.map fun p => (p.1, p.2.forgetAccess) }

/-- The outcome with the access metadata blanked in the table it leaves. -/
def Outcome.forgetAccess {α : Type} : Outcome α → Outcome α
  | .done a t => .done a t.forgetAccess
  | .stuck f t => .stuck f t.forgetAccess

/-- A sequence of accesses: `Value(k)` at the given clock readings, one after
the other, whatever each returns. -/
def accessAll (env : FuncEnv) : List (Time × Key) → CacheTable → Outcome Unit
  | [], t => .done () t
  | (now, k) :: rest, t => (Value env now now k t).bind fun _ t1 => accessAll env rest t1

/-! ## Histories of the table -/

/-- One step in a history of the table: a call of `Add`, `Delete` or `Flush`,
or a run of the expiration sweep. -/
inductive Op where
  | add (now sweepNow : Time) (key : Key) (lifeSpan : Duration) (data : Data)
  | delete (key : Key)
  | flush
  | sweep (now : Time)
deriving DecidableEq, Repr

/-- The step on the table. -/
def step (env : FuncEnv) : Op → CacheTable → Outcome Unit
  | .add now sweepNow key lifeSpan data, t =>
    (Add env now sweepNow key lifeSpan data t).bind fun _ t1 => .done () t1
  | .delete key, t => (Delete env key t).bind fun _ t1 => .done () t1
  | .flush, t => Flush t
  | .sweep now, t => expirationCheck env now t

/-- A history: the steps made one after the other, as long as each returns. -/
def run (env : FuncEnv) : List Op → CacheTable → Outcome Unit
  | [], t => .done () t
  | op :: ops, t => (step env op t).bind fun _ t1 => run env ops t1

/-- The lifeSpan passed to `Add` is an `int64`. -/
def Op.inRange : Op → Prop
  | .add _ _ _ lifeSpan _ => minInt64 ≤ lifeSpan ∧ lifeSpan ≤ maxInt64
  | _ => True

instance (op : Op) : Decidable op.inRange := by
  cases op <;> unfold Op.inRange <;> infer_instance

/-- The shape of every table reached by a history: no lock is held, no add or
delete callback is configured, the keys are pairwise distinct and the
lifeSpans are `int64` values. -/
def HistoryShape (t : CacheTable) : Prop :=
  t.Quiet ∧ t.addedItem = none ∧ t.aboutToDeleteItem = none ∧ (keys t.items).Nodup ∧
    ∀ p ∈ t.items, p.2.aboutToExpire = none ∧ p.2.lifeSpan ≤ maxInt64

/-- What every table reached by a history satisfies: it has the shape above,
and an entry of positive lifeSpan comes with a recorded interval. -/
def SweepInv (t : CacheTable) : Prop :=
  HistoryShape t ∧ ((∃ p ∈ t.items, 0 < p.2.lifeSpan) → t.cleanupInterval ≠ 0)

/-! ## Basic facts -/

@[simp] theorem Outcome.bind_done {α β : Type} (a : α) (t : CacheTable)
    (f : α → CacheTable → Outcome β) : (Outcome.done a t).bind f = f a t := rfl

@[simp] theorem Outcome.bind_stuck {α β : Type} (e : Fault) (t : CacheTable)
    (f : α → CacheTable → Outcome β) : (Outcome.stuck e t : Outcome α).bind f = .stuck e t := rfl

theorem lookup_of_mem_keys {k : Key} {m : Items} (h : k ∈ keys m) : ∃ v, lookup k m = some v := by
  induction m with
  | nil => simp [keys] at h
  | cons p rest ih =>
    obtain ⟨k', v'⟩ := p
    by_cases hk : k' = k
    · exact ⟨v', by simp [lookup, hk]⟩
    · have : k ∈ keys rest := by
        simp only [keys, List.map_cons, List.mem_cons] at h
        rcases h with h | h
        · exact absurd h.symm hk
        · exact h
      obtain ⟨v, hv⟩ := ih this
      exact ⟨v, by simp [lookup, hk, hv]⟩

theorem mem_of_lookup {k : Key} {v : CacheItem} {m : Items} (h : lookup k m = some v) :
    (k, v) ∈ m := by
  induction m with
  | nil => simp [lookup] at h
  | cons p rest ih =>
    obtain ⟨k', v'⟩ := p
    by_cases hk : k' = k
    · simp [lookup, hk] at h
      simp [hk, h]
    · simp [lookup, hk] at h
      exact List.mem_cons_of_mem _ (ih h)

theorem mem_keys_of_lookup {k : Key} {v : CacheItem} {m : Items} (h : lookup k m = some v) :
    k ∈ keys m := by
  have := mem_of_lookup h
  exact List.mem_map.mpr ⟨(k, v), this, rfl⟩

/-- With the write lock held, `Delete` stops at its `table.Lock()`. -/
theorem Delete_locked (env : FuncEnv) (key : Key) (t : CacheTable) (h : t.mu.w = true) :
    Delete env key t = .stuck .deadlock t := by
  simp [Delete, CacheTable.Lock, RWMutex.Lock, h]

/-- With the write lock held, the loop of the sweep never changes the table,
and the only way it stops is a deadlock. -/
theorem sweepLoop_locked (env : FuncEnv) (now : Time) (t : CacheTable) (h : t.mu.w = true) :
    ∀ (ks : List Key) (s : Duration),
      (∃ s', sweepLoop env now ks s t = .done s' t) ∨
        sweepLoop env now ks s t = .stuck .deadlock t := by
  intro ks
  induction ks with
  | nil => intro s; exact Or.inl ⟨s, rfl⟩
  | cons k rest ih =>
    intro s
    cases hl : lookup k t.items with
    | none => simpa only [sweepLoop, hl] using ih s
    | some item =>
      cases hm : item.mu.Lock with
      | none => right; simp only [sweepLoop, hl, hm]
      | some m =>
        simp only [sweepLoop, hl, hm]
        split_ifs with h1 h2 h3
        · exact ih s
        · right; simp [Delete_locked env k t h]
        · exact ih _
        · exact ih s

theorem sweepLoop_table (env : FuncEnv) (now : Time) (t : CacheTable) (h : t.mu.w = true)
    (ks : List Key) (s : Duration) : (sweepLoop env now ks s t).table = t := by
  rcases sweepLoop_locked env now t h ks s with ⟨s', hs⟩ | hs <;> simp [hs, Outcome.table]

/-- The sweep never changes the map of entries, whether it returns or stops. -/
theorem expirationCheck_items (env : FuncEnv) (now : Time) (t : CacheTable) :
    (expirationCheck env now t).table.items = t.items := by
  unfold expirationCheck CacheTable.Lock
  cases hL : t.mu.Lock with
  | none => simp [Outcome.table]
  | some m =>
    simp only [Outcome.bind_done]
    have hw : m.w = true := by
      unfold RWMutex.Lock at hL
      split_ifs at hL
      cases hL; rfl
    rcases sweepLoop_locked env now
        { mu := m, name := t.name, items := t.items, cleanupTimer := t.cleanupTimer.map Timer.Stop,
          cleanupInterval := t.cleanupInterval, loadData := t.loadData, addedItem := t.addedItem,
          aboutToDeleteItem := t.aboutToDeleteItem } hw (keys t.items) 0 with ⟨s', hs⟩ | hs
    · simp only [hs, Outcome.bind_done, CacheTable.Unlock]
      split_ifs <;> simp [RWMutex.Unlock, hw, Outcome.table]
    · simp [hs, Outcome.table]

/-- Under the table lock, a loop of the sweep that visits the key of an
expired entry stops in a deadlock. -/
theorem sweepLoop_stuck_of_expired (env : FuncEnv) (now : Time) (t : CacheTable)
    (h : t.mu.w = true) (k : Key) (item : CacheItem) (hl : lookup k t.items = some item)
    (he : expired now item) :
    ∀ (ks : List Key) (s : Duration), k ∈ ks →
      sweepLoop env now ks s t = .stuck .deadlock t := by
  intro ks
  induction ks with
  | nil => intro s hk; simp at hk
  | cons k' rest ih =>
    intro s hk
    by_cases hkk : k' = k
    · subst hkk
      cases hm : item.mu.Lock with
      | none => simp only [sweepLoop, hl, hm]
      | some m =>
        simp only [sweepLoop, hl, hm]
        rw [if_neg he.1, if_pos he.2, Delete_locked env k' t h]
        rfl
    · have hk' : k ∈ rest := by
        rcases List.mem_cons.mp hk with h1 | h1
        · exact absurd h1.symm hkk
        · exact h1
      rcases sweepLoop_locked env now t h (k' :: rest) s with ⟨s', hs⟩ | hs
      · exfalso
        revert hs
        cases hl' : lookup k' t.items with
        | none => simp only [sweepLoop, hl']; rw [ih s hk']; simp
        | some item' =>
          cases hm : item'.mu.Lock with
          | none => simp only [sweepLoop, hl', hm]; simp
          | some m =>
            simp only [sweepLoop, hl', hm]
            split_ifs with h1 h2 h3
            · rw [ih s hk']; simp
            · simp [Delete_locked env k' t h]
            · rw [ih _ hk']; simp
            · rw [ih s hk']; simp
      · exact hs

/-- If the table lock is free and the map holds an expired entry, the sweep
never returns: it stops in a deadlock, holding the table lock, with every
entry still in the map. -/
theorem expirationCheck_stuck_of_expired (env : FuncEnv) (now : Time) (t : CacheTable)
    (hfree : t.mu = RWMutex.free) (k : Key) (item : CacheItem)
    (hl : lookup k t.items = some item) (he : expired now item) :
    expirationCheck env now t =
      .stuck .deadlock { t with mu := ⟨true, 0⟩, cleanupTimer := t.cleanupTimer.map Timer.Stop } := by
  unfold expirationCheck CacheTable.Lock
  simp only [hfree, RWMutex.free, RWMutex.Lock, and_self, if_true, Outcome.bind_done]
  have hs := sweepLoop_stuck_of_expired env now
    { t with mu := ⟨true, 0⟩, cleanupTimer := t.cleanupTimer.map Timer.Stop } rfl k item hl he
    (keys t.items) 0 (mem_keys_of_lookup hl)
  rw [hs]
  rfl

/-- With every entry lock free and no entry expired,
the loop of the sweep runs to its end and leaves the table as it was. -/
theorem sweepLoop_done (env : FuncEnv) (now : Time) (t : CacheTable)
    (hq : ∀ p ∈ t.items, p.2.mu = RWMutex.free) (hne : ∀ p ∈ t.items, ¬ expired now p.2) :
    ∀ (ks : List Key) (s : Duration), ∃ s', sweepLoop env now ks s t = .done s' t := by
  intro ks
  induction ks with
  | nil => intro s; exact ⟨s, rfl⟩
  | cons k rest ih =>
    intro s
    cases hl : lookup k t.items with
    | none => simpa only [sweepLoop, hl] using ih s
    | some item =>
      have hmem := mem_of_lookup hl
      have hmu : item.mu = RWMutex.free := hq _ hmem
      have hx : ¬ expired now item := hne _ hmem
      simp only [sweepLoop, hl, hmu, RWMutex.free, RWMutex.Lock, and_self, if_true]
      split_ifs with h1 h2 h3
      · exact ih s
      · exact absurd ⟨h1, h2⟩ hx
      · exact ih _
      · exact ih s

/-- With no lock held and no entry expired, the sweep returns; it changes
only the interval and the timer. -/
theorem expirationCheck_done (env : FuncEnv) (now : Time) (t : CacheTable) (hq : t.Quiet)
    (hne : ∀ p ∈ t.items, ¬ expired now p.2) :
    ∃ s' tm, expirationCheck env now t =
      .done () { t with cleanupInterval := s', cleanupTimer := tm } := by
  obtain ⟨hfree, hitems⟩ := hq
  unfold expirationCheck CacheTable.Lock
  simp only [hfree, RWMutex.free, RWMutex.Lock, and_self, if_true, Outcome.bind_done]
  obtain ⟨s', hs⟩ := sweepLoop_done env now
    { t with mu := ⟨true, 0⟩, cleanupTimer := t.cleanupTimer.map Timer.Stop } hitems hne
    (keys t.items) 0
  rw [hs]
  simp only [Outcome.bind_done, CacheTable.Unlock]
  by_cases hpos : s' > 0
  · refine ⟨s', some ⟨s', true⟩, ?_⟩
    simp [hpos, RWMutex.Unlock, hfree, RWMutex.free]
  · refine ⟨s', t.cleanupTimer.map Timer.Stop, ?_⟩
    simp [hpos, RWMutex.Unlock, hfree, RWMutex.free]

/-- C1, at the failing input.  The table holds one entry, added at time 0 with
a lifeSpan of 50ms (it is the table that this `Add` leaves); the sweep runs at
70ms.  The sweep takes the table lock,
finds the entry expired and calls `table.Delete`, whose `table.Lock()` can
never be granted: the sweep does not return, and the expired entry is still
in the map. -/
theorem expirationCheck_deadlocks_on_expired_entry (env : FuncEnv) :
    Add env 0 0 1 50000000 7 emptyTable =
      .done (NewCacheItem 0 1 50000000 7) oneEntryTable ∧
    expired 70000000 (NewCacheItem 0 1 50000000 7) ∧
    expirationCheck env 70000000 oneEntryTable =
      .stuck .deadlock
        { oneEntryTable with mu := ⟨true, 0⟩, cleanupTimer := some ⟨50000000, false⟩ } ∧
    lookup 1 (expirationCheck env 70000000 oneEntryTable).table.items =
      some (NewCacheItem 0 1 50000000 7) := by
  refine ⟨rfl, by decide, rfl, rfl⟩

/-- C2.  The sweep removes only expired entries: an entry whose lifeSpan is 0,
or whose lifeSpan is positive and not yet reached at the clock reading of the
sweep, is still in the map, unchanged (same key, data, lifeSpan, createdOn and
every other field), in the table the sweep leaves behind. -/
theorem expirationCheck_keeps_live_entries (env : FuncEnv) (now : Time) (t : CacheTable)
    (k : Key) (item : CacheItem) (hmem : (k, item) ∈ t.items) :
    (item.lifeSpan = 0 ∨ (0 < item.lifeSpan ∧ Time.Sub now item.createdOn < item.lifeSpan)) →
    (k, item) ∈ (expirationCheck env now t).table.items ∧
      lookup k (expirationCheck env now t).table.items = lookup k t.items := by
  intro _
  rw [expirationCheck_items]
  exact ⟨hmem, rfl⟩

theorem expirationCheck_keeps_live_entries_witness :
    (1, NewCacheItem 0 1 50000000 7) ∈
        (expirationCheck idleEnv 10000000 oneEntryTable).table.items ∧
      lookup 1 (expirationCheck idleEnv 10000000 oneEntryTable).table.items =
        lookup 1 oneEntryTable.items :=
  expirationCheck_keeps_live_entries idleEnv 10000000 oneEntryTable 1
    (NewCacheItem 0 1 50000000 7) (by decide) (Or.inr (by decide))

/-! ## The map -/

theorem lookup_store_self (k : Key) (v : CacheItem) (m : Items) :
    lookup k (store k v m) = some v := by
  induction m with
  | nil => simp [store, lookup]
  | cons p rest ih =>
    obtain ⟨k', v'⟩ := p
    by_cases hk : k' = k <;> simp [store, lookup, hk, ih]

theorem lookup_store_ne {k k' : Key} (v : CacheItem) (m : Items) (h : k' ≠ k) :
    lookup k' (store k v m) = lookup k' m := by
  induction m with
  | nil => simp [store, lookup, h.symm]
  | cons p rest ih =>
    obtain ⟨k1, v1⟩ := p
    by_cases hk : k1 = k
    · subst hk; simp [store, lookup, h.symm]
    · by_cases hk' : k1 = k'
      · subst hk'; simp [store, lookup, hk]
      · simp [store, lookup, hk, hk', ih]

theorem keys_store_of_lookup {k : Key} {v0 : CacheItem} (v : CacheItem) {m : Items}
    (h : lookup k m = some v0) : keys (store k v m) = keys m := by
  induction m with
  | nil => simp [lookup] at h
  | cons p rest ih =>
    obtain ⟨k1, v1⟩ := p
    by_cases hk : k1 = k
    · simp [store, keys, hk]
    · simp only [lookup, hk, if_false] at h
      have := ih h
      simp only [keys] at this
      simp [store, keys, hk, this]

theorem keys_store_of_not_mem {k : Key} (v : CacheItem) {m : Items}
    (h : lookup k m = none) : keys (store k v m) = keys m ++ [k] := by
  induction m with
  | nil => simp [store, keys]
  | cons p rest ih =>
    obtain ⟨k1, v1⟩ := p
    by_cases hk : k1 = k
    · simp [lookup, hk] at h
    · simp only [lookup, hk, if_false] at h
      have := ih h
      simp only [keys] at this
      simp [store, keys, hk, this]

theorem lookup_eq_none_iff {k : Key} {m : Items} : lookup k m = none ↔ k ∉ keys m := by
  constructor
  · intro h hk
    obtain ⟨v, hv⟩ := lookup_of_mem_keys hk
    rw [h] at hv; cases hv
  · intro h
    cases hl : lookup k m with
    | none => rfl
    | some v => exact absurd (mem_keys_of_lookup hl) h

theorem lookup_remove_self (k : Key) (m : Items) : lookup k (remove k m) = none := by
  induction m with
  | nil => simp [remove, lookup]
  | cons p rest ih =>
    obtain ⟨k', v'⟩ := p
    by_cases hk : k' = k <;> simp [remove, lookup, hk, ih]

theorem lookup_remove_ne {k k' : Key} (m : Items) (h : k' ≠ k) :
    lookup k' (remove k m) = lookup k' m := by
  induction m with
  | nil => simp [remove, lookup]
  | cons p rest ih =>
    obtain ⟨k1, v1⟩ := p
    by_cases hk : k1 = k
    · subst hk; simp [remove, lookup, h.symm, ih]
    · by_cases hk' : k1 = k'
      · subst hk'; simp [remove, lookup, hk]
      · simp [remove, lookup, hk, hk', ih]

theorem remove_of_lookup_none {k : Key} {m : Items} (h : lookup k m = none) : remove k m = m := by
  induction m with
  | nil => rfl
  | cons p rest ih =>
    obtain ⟨k', v'⟩ := p
    by_cases hk : k' = k
    · simp [lookup, hk] at h
    · simp only [lookup, hk, if_false] at h
      simp [remove, hk, ih h]

theorem length_remove {k : Key} {v : CacheItem} {m : Items} (hnd : (keys m).Nodup)
    (h : lookup k m = some v) : (remove k m).length + 1 = m.length := by
  induction m with
  | nil => simp [lookup] at h
  | cons p rest ih =>
    obtain ⟨k', v'⟩ := p
    simp only [keys, List.map_cons, List.nodup_cons] at hnd
    by_cases hk : k' = k
    · subst hk
      have : lookup k' rest = none := lookup_eq_none_iff.mpr hnd.1
      simp [remove, remove_of_lookup_none this]
    · simp only [lookup, hk, if_false] at h
      simp [remove, hk, ih hnd.2 h]

theorem remove_store (k : Key) (v : CacheItem) (m : Items) :
    remove k (store k v m) = remove k m := by
  induction m with
  | nil => simp [store, remove]
  | cons p rest ih =>
    obtain ⟨k', v'⟩ := p
    by_cases hk : k' = k <;> simp [store, remove, hk, ih]

theorem wrap64_of_range {x : Int} (h1 : minInt64 ≤ x) (h2 : x ≤ maxInt64) : wrap64 x = x := by
  unfold wrap64
  unfold minInt64 at h1
  unfold maxInt64 at h2
  omega

/-- `RLock` followed by `RUnlock` leaves the table as it was. -/
theorem RLock_RUnlock (t : CacheTable) (hw : t.mu.w = false) {β : Type}
    (f : CacheTable → Outcome β) :
    (t.RLock.bind fun _ t1 => t1.RUnlock.bind fun _ t2 => f t2) = f t := by
  obtain ⟨⟨w, r⟩, name, items, tm, ci, ld, ai, ad⟩ := t
  simp only at hw
  subst hw
  simp [CacheTable.RLock, CacheTable.RUnlock, RWMutex.RLock, RWMutex.RUnlock]

/-! ## `Value` -/

theorem Value_of_locked (env : FuncEnv) (now sweepNow : Time) (key : Key) (t : CacheTable)
    (hw : t.mu.w = true) : Value env now sweepNow key t = .stuck .deadlock t := by
  simp [Value, CacheTable.RLock, RWMutex.RLock, hw]

theorem Value_hit (env : FuncEnv) (now sweepNow : Time) (key : Key) (t : CacheTable)
    (hw : t.mu.w = false) (r : CacheItem) (hl : lookup key t.items = some r) :
    Value env now sweepNow key t =
      match r.KeepAlive now with
      | none => .stuck .deadlock t
      | some r1 => .done (some r1, none) { t with items := store key r1 t.items } := by
  obtain ⟨⟨w, n⟩, name, items, tm, ci, ld, ai, ad⟩ := t
  simp only at hw hl
  subst hw
  simp only [Value, CacheTable.RLock, CacheTable.RUnlock, RWMutex.RLock,
    RWMutex.RUnlock, if_true, Outcome.bind_done, Nat.succ_pos, Nat.add_sub_cancel, hl]

theorem Value_miss_noLoader (env : FuncEnv) (now sweepNow : Time) (key : Key) (t : CacheTable)
    (hw : t.mu.w = false) (hl : lookup key t.items = none) (hld : t.loadData = none) :
    Value env now sweepNow key t = .done (none, some .ErrKeyNotFound) t := by
  obtain ⟨⟨w, n⟩, name, items, tm, ci, ld, ai, ad⟩ := t
  simp only at hw hl hld
  subst hw hld
  simp only [Value, CacheTable.RLock, CacheTable.RUnlock, RWMutex.RLock,
    RWMutex.RUnlock, if_true, Outcome.bind_done, Nat.succ_pos, Nat.add_sub_cancel, hl]

theorem Value_miss_loader (env : FuncEnv) (now sweepNow : Time) (key : Key) (t : CacheTable)
    (hw : t.mu.w = false) (hl : lookup key t.items = none) (h : Nat)
    (hld : t.loadData = some h) :
    Value env now sweepNow key t =
      (env.loadData h key t).bind fun item t3 =>
        match item with
        | some item =>
          (Add env now sweepNow key item.lifeSpan item.data t3).bind fun _ t4 =>
            .done (some item, none) t4
        | none => .done (none, some .ErrKeyNotFoundOrLoadable) t3 := by
  obtain ⟨⟨w, n⟩, name, items, tm, ci, ld, ai, ad⟩ := t
  simp only at hw hl hld
  subst hw hld
  simp only [Value, CacheTable.RLock, CacheTable.RUnlock, RWMutex.RLock,
    RWMutex.RUnlock, if_true, Outcome.bind_done, Nat.succ_pos, Nat.add_sub_cancel, hl]

/-- C3.  `Value(k)` on a present key, called with the table's write lock and
the entry's lock free and the entry's counter below the largest `int64`:
it returns the entry stored for `k` and no error; that entry's accessCount
has grown by exactly 1 and its accessedON is the current time; its key, data,
lifeSpan and createdOn (and its lock and callback) are as before; every other
key maps to the entry it mapped to; the keys of the table are unchanged, and
so is every other field of the table. -/
theorem Value_present_counts_access (env : FuncEnv) (now sweepNow : Time) (k : Key)
    (t : CacheTable) (item : CacheItem) (hw : t.mu.w = false)
    (hl : lookup k t.items = some item) (hmu : item.mu = RWMutex.free)
    (hc : minInt64 ≤ item.accessCount ∧ item.accessCount < maxInt64) :
    ∃ item' t', Value env now sweepNow k t = .done (some item', none) t' ∧
      lookup k t'.items = some item' ∧
      item'.accessCount = item.accessCount + 1 ∧ item'.accessedON = now ∧
      item'.key = item.key ∧ item'.data = item.data ∧ item'.lifeSpan = item.lifeSpan ∧
      item'.createdOn = item.createdOn ∧ item'.mu = item.mu ∧
      item'.aboutToExpire = item.aboutToExpire ∧
      (∀ k', k' ≠ k → lookup k' t'.items = lookup k' t.items) ∧
      keys t'.items = keys t.items ∧
      t' = { t with items := t'.items } := by
  have hwrap : wrap64 (item.accessCount + 1) = item.accessCount + 1 :=
    wrap64_of_range (by have := hc.1; unfold minInt64 at *; omega)
      (by have := hc.2; unfold maxInt64 at *; omega)
  let item' : CacheItem := { item with accessedON := now, accessCount := item.accessCount + 1 }
  refine ⟨item', { t with items := store k item' t.items }, ?_, ?_, rfl, rfl, rfl, rfl, rfl, rfl,
    rfl, rfl, ?_, ?_, rfl⟩
  · rw [Value_hit env now sweepNow k t hw item hl]
    simp [CacheItem.KeepAlive, hmu, RWMutex.free, RWMutex.Lock, hwrap, item']
  · exact lookup_store_self _ _ _
  · intro k' hk'
    exact lookup_store_ne _ _ hk'
  · exact keys_store_of_lookup _ hl

theorem Value_present_counts_access_witness :
    testAddTable.mu.w = false ∧
    lookup 1 testAddTable.items = some (NewCacheItem 0 1 20000000000 7) ∧
    ∃ item' t', Value testEnv 5 5 1 testAddTable = .done (some item', none) t' ∧
      lookup 1 t'.items = some item' ∧
      item'.accessCount = (NewCacheItem 0 1 20000000000 7).accessCount + 1 ∧
      item'.accessedON = 5 ∧
      item'.key = (NewCacheItem 0 1 20000000000 7).key ∧
      item'.data = (NewCacheItem 0 1 20000000000 7).data ∧
      item'.lifeSpan = (NewCacheItem 0 1 20000000000 7).lifeSpan ∧
      item'.createdOn = (NewCacheItem 0 1 20000000000 7).createdOn ∧
      item'.mu = (NewCacheItem 0 1 20000000000 7).mu ∧
      item'.aboutToExpire = (NewCacheItem 0 1 20000000000 7).aboutToExpire ∧
      (∀ k', k' ≠ 1 → lookup k' t'.items = lookup k' testAddTable.items) ∧
      keys t'.items = keys testAddTable.items ∧
      t' = { testAddTable with items := t'.items } :=
  ⟨by decide, by decide,
    Value_present_counts_access testEnv 5 5 1 testAddTable (NewCacheItem 0 1 20000000000 7)
      (by decide) (by decide) rfl (by decide)⟩

/-- C4.  `Value(k)`, called with the table's write lock free, returns an error
exactly when `k` is absent and either no loader is configured or the loader
yields no entry.  The error is ErrKeyNotFound in the first case and
ErrKeyNotFoundOrLoadable in the second; the entry returned with it is nil; and
`Value` itself changes nothing: the table is left as it was (no loader), or
exactly as the loader's call left it. -/
theorem Value_error_iff (env : FuncEnv) (now sweepNow : Time) (k : Key) (t : CacheTable)
    (hw : t.mu.w = false) (r : Option CacheItem) (e : Error) (t' : CacheTable) :
    Value env now sweepNow k t = .done (r, some e) t' ↔
      r = none ∧ lookup k t.items = none ∧
        ((t.loadData = none ∧ e = .ErrKeyNotFound ∧ t' = t) ∨
          (∃ h, t.loadData = some h ∧ env.loadData h k t = .done none t' ∧
            e = .ErrKeyNotFoundOrLoadable)) := by
  constructor
  · intro hv
    cases hl : lookup k t.items with
    | some item =>
      rw [Value_hit env now sweepNow k t hw item hl] at hv
      cases hk : item.KeepAlive now <;> simp [hk] at hv
    | none =>
      cases hld : t.loadData with
      | none =>
        rw [Value_miss_noLoader env now sweepNow k t hw hl hld] at hv
        simp only [Outcome.done.injEq, Prod.mk.injEq, Option.some.injEq] at hv
        obtain ⟨⟨h1, h2⟩, h3⟩ := hv
        exact ⟨h1.symm, rfl, Or.inl ⟨rfl, h2.symm, h3.symm⟩⟩
      | some h =>
        rw [Value_miss_loader env now sweepNow k t hw hl h hld] at hv
        cases hload : env.loadData h k t with
        | stuck f t3 => simp [hload] at hv
        | done item t3 =>
          cases item with
          | some item =>
            simp only [hload, Outcome.bind_done] at hv
            cases hadd : Add env now sweepNow k item.lifeSpan item.data t3 <;>
              simp [hadd] at hv
          | none =>
            simp only [hload, Outcome.bind_done, Outcome.done.injEq, Prod.mk.injEq,
              Option.some.injEq] at hv
            obtain ⟨⟨h1, h2⟩, h3⟩ := hv
            subst h3
            exact ⟨h1.symm, rfl, Or.inr ⟨h, rfl, hload, h2.symm⟩⟩
  · rintro ⟨hr, hl, ⟨hld, he, ht⟩ | ⟨h, hld, hload, he⟩⟩
    · rw [hr, he, ht]
      exact Value_miss_noLoader env now sweepNow k t hw hl hld
    · rw [hr, he, Value_miss_loader env now sweepNow k t hw hl h hld, hload]
      rfl

theorem Value_error_iff_witness :
    oneEntryTable.mu.w = false ∧
    (Value idleEnv 5 5 2 oneEntryTable = .done (none, some .ErrKeyNotFound) oneEntryTable ↔
      (none : Option CacheItem) = none ∧ lookup 2 oneEntryTable.items = none ∧
        ((oneEntryTable.loadData = none ∧ Error.ErrKeyNotFound = .ErrKeyNotFound ∧
            oneEntryTable = oneEntryTable) ∨
          (∃ h, oneEntryTable.loadData = some h ∧
            idleEnv.loadData h 2 oneEntryTable = .done none oneEntryTable ∧
            Error.ErrKeyNotFound = .ErrKeyNotFoundOrLoadable))) :=
  ⟨by decide,
    Value_error_iff idleEnv 5 5 2 oneEntryTable (by decide) none .ErrKeyNotFound oneEntryTable⟩

/-! ## `Add` -/

theorem mem_store {k : Key} {v : CacheItem} {m : Items} {p : Key × CacheItem}
    (h : p ∈ store k v m) : p = (k, v) ∨ p ∈ m := by
  induction m with
  | nil => left; simpa [store] using h
  | cons q rest ih =>
    obtain ⟨k', v'⟩ := q
    by_cases hk : k' = k
    · simp only [store, hk, if_true, List.mem_cons] at h
      rcases h with h | h
      · exact Or.inl h
      · exact Or.inr (List.mem_cons_of_mem _ h)
    · simp only [store, hk, if_false, List.mem_cons] at h
      rcases h with h | h
      · exact Or.inr (by simp [h])
      · rcases ih h with h' | h'
        · exact Or.inl h'
        · exact Or.inr (List.mem_cons_of_mem _ h')

/-- `Add` with the table lock free, no addedItem callback, every entry lock
free and, if it starts a sweep, no entry expired at the clock reading of that
sweep: it returns the new entry, which is stored under its key; besides the
map only the interval and the timer may have changed. -/
theorem Add_done (env : FuncEnv) (now sweepNow : Time) (key : Key) (lifeSpan : Duration)
    (data : Data) (t : CacheTable) (hq : t.Quiet) (hcb : t.addedItem = none)
    (hne : lifeSpan > 0 ∧ (t.cleanupInterval = 0 ∨ lifeSpan < t.cleanupInterval) →
      ∀ p ∈ store key (NewCacheItem now key lifeSpan data) t.items, ¬ expired sweepNow p.2) :
    ∃ s' tm, Add env now sweepNow key lifeSpan data t =
      .done (NewCacheItem now key lifeSpan data)
        { t with items := store key (NewCacheItem now key lifeSpan data) t.items,
                 cleanupInterval := s', cleanupTimer := tm } := by
  obtain ⟨hfree, hitems⟩ := hq
  obtain ⟨mu, name, items, tm0, ci, ld, ai, ad⟩ := t
  simp only at hfree hitems hcb hne
  subst hfree hcb
  simp only [Add, addInternal, CacheTable.Lock, CacheTable.Unlock, RWMutex.Lock, RWMutex.Unlock,
    RWMutex.free, and_self, if_true, Outcome.bind_done]
  by_cases hc : lifeSpan > 0 ∧ (ci = 0 ∨ lifeSpan < ci)
  · have hq' : CacheTable.Quiet
        { mu := ⟨false, 0⟩, name := name,
          items := store key (NewCacheItem now key lifeSpan data) items,
          cleanupTimer := tm0, cleanupInterval := ci, loadData := ld, addedItem := none,
          aboutToDeleteItem := ad } := by
      refine ⟨rfl, ?_⟩
      intro p hp
      rcases mem_store hp with h | h
      · rw [h]; rfl
      · exact hitems p h
    obtain ⟨s', tm, hs⟩ := expirationCheck_done env sweepNow _ hq' (hne hc)
    refine ⟨s', tm, ?_⟩
    have hc' : (NewCacheItem now key lifeSpan data).lifeSpan > 0 ∧
        (ci = 0 ∨ (NewCacheItem now key lifeSpan data).lifeSpan < ci) := hc
    have hk : (NewCacheItem now key lifeSpan data).key = key := rfl
    simp only [hk, if_pos hc', hs, Outcome.bind_done]
  · refine ⟨ci, tm0, ?_⟩
    have hc' : ¬ ((NewCacheItem now key lifeSpan data).lifeSpan > 0 ∧
        (ci = 0 ∨ (NewCacheItem now key lifeSpan data).lifeSpan < ci)) := hc
    have hk : (NewCacheItem now key lifeSpan data).key = key := rfl
    simp only [hk, if_neg hc', Outcome.bind_done]

/-- C5, counterexample.  On a fresh table whose loader builds an entry for key
1 (at time 3, before `Add` builds its own at time 5), `Value(1)` returns no
error, but the entry it returns is not the entry the table holds for key 1. -/
theorem Value_loaded_returns_entry_not_in_table :
    lookup 1 loaderTable.items = none ∧
    testEnv.loadData 0 1 loaderTable = .done (some (NewCacheItem 3 1 0 7)) loaderTable ∧
    ¬ ∃ ret t', Value testEnv 5 5 1 loaderTable = .done (some ret, none) t' ∧
        lookup 1 t'.items = some ret := by
  refine ⟨rfl, rfl, ?_⟩
  rintro ⟨ret, t', hv, hl⟩
  have hrun : Value testEnv 5 5 1 loaderTable =
      .done (some (NewCacheItem 3 1 0 7), none)
        { loaderTable with items := [(1, NewCacheItem 5 1 0 7)] } := by decide
  rw [hrun] at hv
  simp only [Outcome.done.injEq, Prod.mk.injEq, Option.some.injEq, and_true] at hv
  obtain ⟨hret, ht⟩ := hv
  subst hret ht
  revert hl
  decide

/-- C5, amended.  The table holds no lock and has no addedItem callback, does
not contain `k`, and its loader yields an entry `e` for `k` (leaving the table
as it is); no entry is expired at the clock reading of the sweep that the
insertion may start.  Then `Value(k)` returns without error; the table holds
for `k` the entry that `Add` built from `k` and the lifeSpan and data of `e`;
every other key maps to what it mapped to; and the entry returned to the
caller is `e` itself, the entry the loader yielded. -/
theorem Value_loaded_inserts_copy (env : FuncEnv) (now sweepNow : Time) (k : Key)
    (t : CacheTable) (h : Nat) (e : CacheItem) (hq : t.Quiet)
    (hl : lookup k t.items = none) (hld : t.loadData = some h)
    (hload : env.loadData h k t = .done (some e) t) (hcb : t.addedItem = none)
    (hne : e.lifeSpan > 0 ∧ (t.cleanupInterval = 0 ∨ e.lifeSpan < t.cleanupInterval) →
      ∀ p ∈ store k (NewCacheItem now k e.lifeSpan e.data) t.items, ¬ expired sweepNow p.2) :
    ∃ t', Value env now sweepNow k t = .done (some e, none) t' ∧
      lookup k t'.items = some (NewCacheItem now k e.lifeSpan e.data) ∧
      (NewCacheItem now k e.lifeSpan e.data).lifeSpan = e.lifeSpan ∧
      (NewCacheItem now k e.lifeSpan e.data).data = e.data ∧
      (∀ k', k' ≠ k → lookup k' t'.items = lookup k' t.items) := by
  have hw : t.mu.w = false := by rw [hq.1]; rfl
  obtain ⟨s', tm, hadd⟩ := Add_done env now sweepNow k e.lifeSpan e.data t hq hcb hne
  refine ⟨{ t with items := store k (NewCacheItem now k e.lifeSpan e.data) t.items,
                   cleanupInterval := s', cleanupTimer := tm }, ?_, ?_, rfl, rfl, ?_⟩
  · rw [Value_miss_loader env now sweepNow k t hw hl h hld, hload]
    simp only [Outcome.bind_done, hadd]
  · exact lookup_store_self _ _ _
  · intro k' hk'
    exact lookup_store_ne _ _ hk'

theorem Value_loaded_inserts_copy_witness :
    ∃ t', Value testEnv 5 5 1 loaderTable = .done (some (NewCacheItem 3 1 0 7), none) t' ∧
      lookup 1 t'.items =
        some (NewCacheItem 5 1 (NewCacheItem 3 1 0 7).lifeSpan (NewCacheItem 3 1 0 7).data) ∧
      (NewCacheItem 5 1 (NewCacheItem 3 1 0 7).lifeSpan (NewCacheItem 3 1 0 7).data).lifeSpan =
        (NewCacheItem 3 1 0 7).lifeSpan ∧
      (NewCacheItem 5 1 (NewCacheItem 3 1 0 7).lifeSpan (NewCacheItem 3 1 0 7).data).data =
        (NewCacheItem 3 1 0 7).data ∧
      (∀ k', k' ≠ 1 → lookup k' t'.items = lookup k' loaderTable.items) :=
  Value_loaded_inserts_copy testEnv 5 5 1 loaderTable 0 (NewCacheItem 3 1 0 7)
    ⟨rfl, by decide⟩ rfl rfl rfl rfl (by decide)

/-! ## Sequences of `Add` -/

theorem addAll_append (env : FuncEnv) (xs ys : List AddCall) (t : CacheTable) :
    addAll env (xs ++ ys) t = (addAll env xs t).bind fun _ t1 => addAll env ys t1 := by
  induction xs generalizing t with
  | nil => rfl
  | cons c cs ih =>
    simp only [List.cons_append, addAll]
    cases Add env c.now c.sweepNow c.key c.lifeSpan c.data t with
    | done a t1 => simp [ih]
    | stuck f t1 => rfl

theorem lastAdd_append_singleton (k : Key) (cs : List AddCall) (c : AddCall) :
    lastAdd k (cs ++ [c]) = if c.key = k then some c else lastAdd k cs := by
  induction cs with
  | nil => simp [lastAdd]
  | cons d ds ih =>
    simp only [List.cons_append, lastAdd, List.append_eq]
    rw [ih]
    by_cases hc : c.key = k
    · simp [hc]
    · simp [hc]

theorem lastAdd_key {k : Key} {cs : List AddCall} {d : AddCall} (h : lastAdd k cs = some d) :
    d ∈ cs ∧ d.key = k := by
  induction cs with
  | nil => simp [lastAdd] at h
  | cons c cs ih =>
    simp only [lastAdd] at h
    cases hl : lastAdd k cs with
    | some d' =>
      simp only [hl, Option.some.injEq] at h
      subst h
      exact ⟨List.mem_cons_of_mem _ (ih hl).1, (ih hl).2⟩
    | none =>
      simp only [hl] at h
      split_ifs at h with hk
      simp only [Option.some.injEq] at h
      subst h
      exact ⟨List.mem_cons_self _ _, hk⟩

theorem lastAdd_isSome_iff (k : Key) (cs : List AddCall) :
    (∃ d, lastAdd k cs = some d) ↔ ∃ c ∈ cs, c.key = k := by
  constructor
  · rintro ⟨d, hd⟩
    exact ⟨d, lastAdd_key hd⟩
  · rintro ⟨c, hc, hk⟩
    induction cs with
    | nil => simp at hc
    | cons c' cs ih =>
      simp only [lastAdd]
      cases hl : lastAdd k cs with
      | some d => exact ⟨d, rfl⟩
      | none =>
        rcases List.mem_cons.mp hc with h | h
        · subst h; exact ⟨c, by simp [hk]⟩
        · obtain ⟨d, hd⟩ := ih h
          rw [hl] at hd; cases hd

theorem noExpiryFrom_append_singleton (pre post : List AddCall) (c : AddCall) :
    noExpiryFrom pre (post ++ [c]) ↔
      noExpiryFrom pre post ∧
        ∀ d ∈ pre ++ post ++ [c], lastAdd d.key (pre ++ post ++ [c]) = some d →
          ¬ expired c.sweepNow d.entry := by
  induction post generalizing pre with
  | nil => simp [noExpiryFrom]
  | cons x xs ih =>
    have e : pre ++ [x] ++ xs ++ [c] = pre ++ x :: xs ++ [c] := by simp
    simp only [List.cons_append, noExpiryFrom, List.append_eq]
    rw [ih (pre ++ [x]), e, and_assoc]

theorem lookup_of_mem_nodup {k : Key} {v : CacheItem} {m : Items} (hnd : (keys m).Nodup)
    (h : (k, v) ∈ m) : lookup k m = some v := by
  induction m with
  | nil => simp at h
  | cons p rest ih =>
    obtain ⟨k', v'⟩ := p
    simp only [keys, List.map_cons, List.nodup_cons] at hnd
    rcases List.mem_cons.mp h with h | h
    · cases h; simp [lookup]
    · have hk : k' ≠ k := by
        intro e
        apply hnd.1
        rw [e]
        exact List.mem_map.mpr ⟨(k, v), h, rfl⟩
      simp [lookup, hk, ih hnd.2 h]

theorem nodup_keys_store (k : Key) (v : CacheItem) {m : Items} (hnd : (keys m).Nodup) :
    (keys (store k v m)).Nodup := by
  cases hl : lookup k m with
  | some v0 => rw [keys_store_of_lookup v hl]; exact hnd
  | none =>
    rw [keys_store_of_not_mem v hl]
    have := lookup_eq_none_iff.mp hl
    exact List.Nodup.append hnd (List.nodup_singleton k) (by simpa using this)

theorem lookup_store (k k' : Key) (v : CacheItem) (m : Items) :
    lookup k' (store k v m) = if k' = k then some v else lookup k' m := by
  by_cases h : k' = k
  · subst h; simp [lookup_store_self]
  · simp [h, lookup_store_ne v m h]

/-- `Count` with the table lock free. -/
theorem Count_of_free (t : CacheTable) (hfree : t.mu = RWMutex.free) :
    Count t = .done t.items.length t := by
  obtain ⟨mu, name, items, tm0, ci, ld, ai, ad⟩ := t
  simp only at hfree
  subst hfree
  simp [Count, CacheTable.Lock, CacheTable.Unlock, RWMutex.Lock, RWMutex.Unlock, RWMutex.free]

/-- The state reached by a sequence of `Add` calls from an empty table. -/
theorem addAll_from_empty (env : FuncEnv) (t0 : CacheTable) (hfree : t0.mu = RWMutex.free)
    (hempty : t0.items = []) (hcb : t0.addedItem = none) :
    ∀ cs : List AddCall, NoExpiry cs →
      ∃ t', addAll env cs t0 = .done () t' ∧ t'.Quiet ∧ t'.addedItem = none ∧
        (keys t'.items).Nodup ∧
        ∀ k, lookup k t'.items = (lastAdd k cs).map AddCall.entry := by
  intro cs
  induction cs using List.reverseRecOn with
  | nil =>
    intro _
    refine ⟨t0, rfl, ⟨hfree, ?_⟩, hcb, ?_, ?_⟩
    · simp [hempty]
    · simp [hempty, keys]
    · intro k; simp [hempty, lookup, lastAdd]
  | append_singleton cs c ih =>
    intro hne
    have hne' := (noExpiryFrom_append_singleton [] cs c).mp hne
    obtain ⟨t1, hrun, hq1, hcb1, hnd1, hlk1⟩ := ih hne'.1
    have hlk2 : ∀ k, lookup k (store c.key c.entry t1.items) =
        (lastAdd k (cs ++ [c])).map AddCall.entry := by
      intro k
      rw [lookup_store, lastAdd_append_singleton, hlk1]
      by_cases hk : k = c.key
      · simp [hk]
      · have hk' : ¬ c.key = k := fun e => hk e.symm
        simp [hk, hk']
    have hnd2 := nodup_keys_store c.key c.entry hnd1
    have hexp : ∀ p ∈ store c.key c.entry t1.items, ¬ expired c.sweepNow p.2 := by
      intro p hp
      have hl := lookup_of_mem_nodup hnd2 (show (p.1, p.2) ∈ _ from hp)
      rw [hlk2] at hl
      cases hd : lastAdd p.1 (cs ++ [c]) with
      | none => simp [hd] at hl
      | some d =>
        simp only [hd, Option.map_some', Option.some.injEq] at hl
        rw [← hl]
        have hdk := lastAdd_key hd
        apply hne'.2 d (by simpa using hdk.1)
        simpa [hdk.2] using hd
    obtain ⟨s', tm, hadd⟩ := Add_done env c.now c.sweepNow c.key c.lifeSpan c.data t1 hq1 hcb1
      (fun _ => hexp)
    refine ⟨{ t1 with items := store c.key c.entry t1.items, cleanupInterval := s',
                      cleanupTimer := tm }, ?_, ⟨hq1.1, ?_⟩, hcb1, hnd2, hlk2⟩
    · rw [addAll_append, hrun]
      simp only [Outcome.bind_done, addAll, hadd]
      rfl
    · intro p hp
      rcases mem_store hp with h | h
      · rw [h]; rfl
      · exact hq1.2 p h

/-- C6.  A finite sequence of `Add` calls on an empty table whose lock is free
and which has no addedItem callback, no entry expiring during the sequence:
every call returns; the table then holds exactly one entry per distinct key of
the sequence (its keys are pairwise distinct and are the keys of the
sequence); `Count()` returns the number of distinct keys; and the entry of
each key carries the key, lifeSpan and data of the last `Add` for that key,
with accessCount 0. -/
theorem addAll_last_add_wins (env : FuncEnv) (t0 : CacheTable) (cs : List AddCall)
    (hfree : t0.mu = RWMutex.free) (hempty : t0.items = []) (hcb : t0.addedItem = none)
    (hne : NoExpiry cs) :
    ∃ t', addAll env cs t0 = .done () t' ∧
      (keys t'.items).Nodup ∧
      (∀ k, k ∈ keys t'.items ↔ ∃ c ∈ cs, c.key = k) ∧
      Count t' = .done (cs.map AddCall.key).dedup.length t' ∧
      (∀ k c, lastAdd k cs = some c →
        ∃ item, lookup k t'.items = some item ∧ item.key = k ∧
          item.lifeSpan = c.lifeSpan ∧ item.data = c.data ∧ item.accessCount = 0) := by
  obtain ⟨t', hrun, hq, _, hnd, hlk⟩ := addAll_from_empty env t0 hfree hempty hcb cs hne
  have hkeys : ∀ k, k ∈ keys t'.items ↔ ∃ c ∈ cs, c.key = k := by
    intro k
    rw [← lastAdd_isSome_iff]
    constructor
    · intro hk
      obtain ⟨v, hv⟩ := lookup_of_mem_keys hk
      rw [hlk] at hv
      cases hd : lastAdd k cs with
      | none => simp [hd] at hv
      | some d => exact ⟨d, rfl⟩
    · rintro ⟨d, hd⟩
      have : lookup k t'.items = some d.entry := by rw [hlk, hd]; rfl
      exact mem_keys_of_lookup this
  refine ⟨t', hrun, hnd, hkeys, ?_, ?_⟩
  · rw [Count_of_free t' hq.1]
    have hperm : (keys t'.items).Perm (cs.map AddCall.key).dedup := by
      rw [List.perm_ext_iff_of_nodup hnd (List.nodup_dedup _)]
      intro k
      rw [hkeys, List.mem_dedup, List.mem_map]
    have hlen := hperm.length_eq
    simp only [keys, List.length_map] at hlen
    rw [hlen]
  · intro k c hc
    refine ⟨c.entry, ?_, ?_, rfl, rfl, rfl⟩
    · rw [hlk, hc]; rfl
    · exact (lastAdd_key hc).2

theorem addAll_last_add_wins_witness :
    NoExpiry sampleCalls ∧
    ∃ t', addAll idleEnv sampleCalls emptyTable = .done () t' ∧
      (keys t'.items).Nodup ∧
      (∀ k, k ∈ keys t'.items ↔ ∃ c ∈ sampleCalls, c.key = k) ∧
      Count t' = .done (sampleCalls.map AddCall.key).dedup.length t' ∧
      (∀ k c, lastAdd k sampleCalls = some c →
        ∃ item, lookup k t'.items = some item ∧ item.key = k ∧
          item.lifeSpan = c.lifeSpan ∧ item.data = c.data ∧ item.accessCount = 0) :=
  have h : NoExpiry sampleCalls := by
    simp only [NoExpiry, noExpiryFrom, sampleCalls]
    decide
  ⟨h, addAll_last_add_wins idleEnv emptyTable sampleCalls rfl rfl rfl h⟩

/-! ## `Delete` -/

/-- `Exists` with the write lock free. -/
theorem Exists_of_unlocked (k : Key) (t : CacheTable) (hw : t.mu.w = false) :
    Exists k t = .done (lookup k t.items).isSome t := by
  obtain ⟨⟨w, n⟩, name, items, tm, ci, ld, ai, ad⟩ := t
  simp only at hw
  subst hw
  simp [Exists, CacheTable.RLock, CacheTable.RUnlock, RWMutex.RLock, RWMutex.RUnlock]

/-- `Delete` of an absent key, with the table lock free. -/
theorem Delete_absent (env : FuncEnv) (k : Key) (t : CacheTable) (hfree : t.mu = RWMutex.free)
    (hl : lookup k t.items = none) :
    Delete env k t = .done (none, some .ErrKeyNotFound) t := by
  obtain ⟨mu, name, items, tm0, ci, ld, ai, ad⟩ := t
  simp only at hfree hl
  subst hfree
  simp [Delete, deleteInternal, CacheTable.Lock, CacheTable.Unlock, RWMutex.Lock,
    RWMutex.Unlock, RWMutex.free, hl]

/-- `deleteInternal` on a present key never returns an error. -/
theorem deleteInternal_present_no_error (env : FuncEnv) (k : Key) (t : CacheTable)
    (r : CacheItem) (hl : lookup k t.items = some r)
    (res : Option CacheItem × Option Error) (t' : CacheTable)
    (h : deleteInternal env k t = .done res t') : res.2 = none := by
  simp only [deleteInternal, hl] at h
  cases h1 : t.Unlock with
  | stuck f x => simp [h1] at h
  | done u t1 =>
    simp only [h1, Outcome.bind_done] at h
    generalize (match t.aboutToDeleteItem with
      | none => Outcome.done () t1
      | some hd => env.aboutToDeleteItem hd r t1) = o2 at h
    cases o2 with
    | stuck f x => simp at h
    | done u2 t2 =>
      simp only [Outcome.bind_done] at h
      cases h3 : r.mu.RLock with
      | none => simp [h3] at h
      | some m =>
        simp only [h3] at h
        generalize (match r.aboutToExpire with
          | none => Outcome.done ()
              (if lookup k t2.items = some r then
                { t2 with items := store k { r with mu := m } t2.items } else t2)
          | some he => env.aboutToExpire he k
              (if lookup k t2.items = some r then
                { t2 with items := store k { r with mu := m } t2.items } else t2)) = o4 at h
        cases o4 with
        | stuck f x => simp at h
        | done u4 t4 =>
          simp only [Outcome.bind_done] at h
          cases h5 : t4.Lock with
          | stuck f x => simp [h5] at h
          | done u5 t5 =>
            simp only [h5, Outcome.bind_done, Outcome.done.injEq] at h
            rw [← h.1]

/-- `Delete` of a present key whose lock is not write-held, with the table
lock free and callbacks that leave the table alone. -/
theorem Delete_present (env : FuncEnv) (k : Key) (t : CacheTable) (r : CacheItem)
    (hfree : t.mu = RWMutex.free) (hl : lookup k t.items = some r) (hrw : r.mu.w = false)
    (hcb1 : ∀ h, t.aboutToDeleteItem = some h → ∀ x, env.aboutToDeleteItem h r x = .done () x)
    (hcb2 : ∀ h, r.aboutToExpire = some h → ∀ x, env.aboutToExpire h k x = .done () x) :
    Delete env k t =
      .done (some { r with mu := ⟨false, r.mu.r + 1⟩ }, none)
        { t with items := remove k t.items } := by
  obtain ⟨mu, name, items, tm0, ci, ld, ai, ad⟩ := t
  simp only at hfree hl hcb1
  subst hfree
  have h4 : ∀ x, (match r.aboutToExpire with
      | none => Outcome.done () x
      | some he => env.aboutToExpire he k x) = Outcome.done () x := by
    intro x
    cases he : r.aboutToExpire with
    | none => rfl
    | some he' => exact hcb2 he' he x
  rcases ad with _ | hd
  · simp only [Delete, deleteInternal, CacheTable.Lock, CacheTable.Unlock, RWMutex.Lock,
      RWMutex.Unlock, RWMutex.RLock, RWMutex.free, and_self, if_true, Outcome.bind_done, hl,
      hrw, h4, remove_store]
  · have h2 := hcb1 hd rfl
    simp only [Delete, deleteInternal, CacheTable.Lock, CacheTable.Unlock, RWMutex.Lock,
      RWMutex.Unlock, RWMutex.RLock, RWMutex.free, and_self, if_true, Outcome.bind_done, hl,
      h2, hrw, h4, remove_store]

/-- C7.  `Delete(k)` on a present key, called with the table lock free and the
entry not write-locked, the callbacks absent or leaving the table alone:
it returns, with no error, the entry stored for `k` (now holding the read
lock that `deleteInternal` took on it); the table is the table before with `k`
removed: every other key maps to the same entry, no other field has changed,
`Count()` has decreased by exactly 1, and `Exists(k)` is false. -/
theorem Delete_present_removes_exactly_key (env : FuncEnv) (k : Key) (t : CacheTable)
    (r : CacheItem) (hfree : t.mu = RWMutex.free) (hnd : (keys t.items).Nodup)
    (hl : lookup k t.items = some r) (hrw : r.mu.w = false)
    (hcb1 : ∀ h, t.aboutToDeleteItem = some h → ∀ x, env.aboutToDeleteItem h r x = .done () x)
    (hcb2 : ∀ h, r.aboutToExpire = some h → ∀ x, env.aboutToExpire h k x = .done () x) :
    ∃ r' t', Delete env k t = .done (some r', none) t' ∧
      r' = { r with mu := ⟨false, r.mu.r + 1⟩ } ∧
      t' = { t with items := remove k t.items } ∧
      lookup k t'.items = none ∧
      (∀ k', k' ≠ k → lookup k' t'.items = lookup k' t.items) ∧
      (∃ n, Count t = .done (n + 1) t ∧ Count t' = .done n t') ∧
      Exists k t' = .done false t' := by
  refine ⟨_, _, Delete_present env k t r hfree hl hrw hcb1 hcb2, rfl, rfl, ?_, ?_, ?_, ?_⟩
  · exact lookup_remove_self _ _
  · intro k' hk'
    exact lookup_remove_ne _ hk'
  · refine ⟨(remove k t.items).length, ?_, ?_⟩
    · rw [Count_of_free t hfree, length_remove hnd hl]
    · exact Count_of_free _ hfree
  · rw [Exists_of_unlocked k _ (by rw [hfree]; rfl)]
    simp [lookup_remove_self]

theorem Delete_present_removes_exactly_key_witness :
    ∃ r' t', Delete idleEnv 1 twoEntryTable = .done (some r', none) t' ∧
      r' = { ({ NewCacheItem 0 1 50000000 7 with aboutToExpire := some 0 } : CacheItem) with
        mu := ⟨false, 1⟩ } ∧
      t' = { twoEntryTable with items := remove 1 twoEntryTable.items } ∧
      lookup 1 t'.items = none ∧
      (∀ k', k' ≠ 1 → lookup k' t'.items = lookup k' twoEntryTable.items) ∧
      (∃ n, Count twoEntryTable = .done (n + 1) twoEntryTable ∧ Count t' = .done n t') ∧
      Exists 1 t' = .done false t' :=
  Delete_present_removes_exactly_key idleEnv 1 twoEntryTable
    { NewCacheItem 0 1 50000000 7 with aboutToExpire := some 0 } rfl (by decide) rfl rfl
    (fun _ _ _ => rfl) (fun _ _ _ => rfl)

/-- C8.  `Delete(k)`, called with the table lock free, returns an error exactly
when `k` is absent from the table; the error is then ErrKeyNotFound, the entry
returned is nil and the table is left as it was.  This holds whatever the
callbacks would do if called, so none is called. -/
theorem Delete_error_iff (env : FuncEnv) (k : Key) (t : CacheTable)
    (hfree : t.mu = RWMutex.free) (r : Option CacheItem) (e : Error) (t' : CacheTable) :
    Delete env k t = .done (r, some e) t' ↔
      lookup k t.items = none ∧ r = none ∧ e = .ErrKeyNotFound ∧ t' = t := by
  constructor
  · intro hd
    cases hl : lookup k t.items with
    | none =>
      rw [Delete_absent env k t hfree hl] at hd
      simp only [Outcome.done.injEq, Prod.mk.injEq, Option.some.injEq] at hd
      exact ⟨rfl, hd.1.1.symm, hd.1.2.symm, hd.2.symm⟩
    | some r0 =>
      exfalso
      simp only [Delete, CacheTable.Lock, hfree, RWMutex.free, RWMutex.Lock, and_self, if_true,
        Outcome.bind_done] at hd
      cases hdi : deleteInternal env k { t with mu := ⟨true, 0⟩ } with
      | stuck f x => simp [hdi] at hd
      | done res t2 =>
        have hres := deleteInternal_present_no_error env k { t with mu := ⟨true, 0⟩ } r0 hl
          res t2 hdi
        simp only [hdi, Outcome.bind_done] at hd
        cases hu : t2.Unlock with
        | stuck f x => simp [hu] at hd
        | done u t3 =>
          simp only [hu, Outcome.bind_done, Outcome.done.injEq] at hd
          rw [hd.1] at hres
          simp at hres
  · rintro ⟨hl, hr, he, ht⟩
    rw [hr, he, ht]
    exact Delete_absent env k t hfree hl

theorem Delete_error_iff_witness :
    twoEntryTable.mu = RWMutex.free ∧
    (Delete trapEnv 3 twoEntryTable = .done (none, some .ErrKeyNotFound) twoEntryTable ↔
      lookup 3 twoEntryTable.items = none ∧ (none : Option CacheItem) = none ∧
        Error.ErrKeyNotFound = .ErrKeyNotFound ∧ twoEntryTable = twoEntryTable) :=
  ⟨rfl, Delete_error_iff trapEnv 3 twoEntryTable rfl none .ErrKeyNotFound twoEntryTable⟩

/-! ## `Flush` -/

/-- `Flush` with the table lock free. -/
theorem Flush_of_free (t : CacheTable) (hfree : t.mu = RWMutex.free) :
    Flush t = .done ()
      { t with items := [], cleanupInterval := 0,
               cleanupTimer := t.cleanupTimer.map Timer.Stop } := by
  obtain ⟨mu, name, items, tm0, ci, ld, ai, ad⟩ := t
  simp only at hfree
  subst hfree
  simp [Flush, CacheTable.Lock, CacheTable.Unlock, RWMutex.Lock, RWMutex.Unlock, RWMutex.free]

/-- C9.  `Flush()`, called with the table lock free, returns and leaves the
map empty and cleanupInterval 0, with the timer, if any, stopped and nothing
else changed; then `Count()` returns 0 and, when no loader is configured,
`Value(k)` returns a nil entry and ErrKeyNotFound for every key `k`; a second
`Flush()` leaves the state of the first. -/
theorem Flush_empties_table (env : FuncEnv) (now sweepNow : Time) (t : CacheTable)
    (hfree : t.mu = RWMutex.free) :
    ∃ t', Flush t = .done () t' ∧
      t'.items = [] ∧ t'.cleanupInterval = 0 ∧
      (∀ tm, t'.cleanupTimer = some tm → tm.pending = false) ∧
      t' = { t with items := [], cleanupInterval := 0,
                    cleanupTimer := t.cleanupTimer.map Timer.Stop } ∧
      Count t' = .done 0 t' ∧
      (t.loadData = none →
        ∀ k, Value env now sweepNow k t' = .done (none, some .ErrKeyNotFound) t') ∧
      Flush t' = .done () t' := by
  refine ⟨_, Flush_of_free t hfree, rfl, rfl, ?_, rfl, ?_, ?_, ?_⟩
  · intro tm htm
    simp only [Option.map_eq_some'] at htm
    obtain ⟨tm0, _, h0⟩ := htm
    rw [← h0]
    rfl
  · exact Count_of_free _ hfree
  · intro hld k
    exact Value_miss_noLoader env now sweepNow k _ (by simp [hfree, RWMutex.free]) rfl hld
  · have h2 := Flush_of_free
      { t with items := [], cleanupInterval := 0,
               cleanupTimer := t.cleanupTimer.map Timer.Stop } hfree
    rw [h2]
    cases htm : t.cleanupTimer <;> simp [Timer.Stop]

theorem Flush_empties_table_witness :
    lookup 1 testFlushTable.items = some (NewCacheItem 0 1 100000000000 7) ∧
    ∃ t', Flush testFlushTable = .done () t' ∧
      t'.items = [] ∧ t'.cleanupInterval = 0 ∧
      (∀ tm, t'.cleanupTimer = some tm → tm.pending = false) ∧
      t' = { testFlushTable with
        items := [], cleanupInterval := 0,
        cleanupTimer := testFlushTable.cleanupTimer.map Timer.Stop } ∧
      Count t' = .done 0 t' ∧
      (testFlushTable.loadData = none →
        ∀ k, Value testEnv 5 5 k t' = .done (none, some .ErrKeyNotFound) t') ∧
      Flush t' = .done () t' :=
  ⟨by decide, Flush_empties_table testEnv 5 5 testFlushTable (by decide)⟩

/-! ## `MostAccessed` -/

theorem collect_eq (items : Items) (count : Int) :
    ∀ (p : CacheItemPairList) (c : Int) (r : List CacheItem),
      collect items count p c r =
        r ++ (p.take (count - c).toNat).filterMap (fun v => lookup v.key items) := by
  intro p
  induction p with
  | nil => intro c r; simp [collect]
  | cons v rest ih =>
    intro c r
    by_cases hc : c ≥ count
    · have h0 : (count - c).toNat = 0 := by omega
      simp [collect, hc, h0]
    · have h1 : (count - c).toNat = (count - (c + 1)).toNat + 1 := by omega
      simp only [collect, hc, if_false]
      rw [h1, List.take_succ_cons]
      cases hl : lookup v.key items with
      | none => simp [ih, List.filterMap_cons, hl]
      | some item => simp [ih, List.filterMap_cons, hl]

/-- When every pair of `l` names a key of the map, looking the pairs up gives
one entry per pair, in order. -/
theorem filterMap_lookup (items : Items) (l : CacheItemPairList)
    (h : ∀ v ∈ l, ∃ item, lookup v.key items = some item ∧ item.accessCount = v.AccessCount) :
    (l.filterMap (fun v => lookup v.key items)).length = l.length ∧
      (l.map (fun v => lookup v.key items)) =
        (l.filterMap (fun v => lookup v.key items)).map some ∧
      (l.filterMap (fun v => lookup v.key items)).map CacheItem.accessCount =
        l.map CacheItemPair.AccessCount := by
  induction l with
  | nil => simp
  | cons v rest ih =>
    obtain ⟨item, hl, hac⟩ := h v (List.mem_cons_self _ _)
    obtain ⟨h1, h2, h3⟩ := ih (fun w hw => h w (List.mem_cons_of_mem _ hw))
    simp only [List.filterMap_cons, hl, List.length_cons, List.map_cons, h1, h2, h3, hac,
      and_self]

/-- `MostAccessed` with the table lock free: the result is read off the first
`count` pairs of the sorted list. -/
theorem MostAccessed_of_free (sortSort : CacheItemPairList → CacheItemPairList) (count : Int)
    (t : CacheTable) (hfree : t.mu = RWMutex.free) :
    MostAccessed sortSort count t =
      .done (((sortSort (t.items.map fun kv => ⟨kv.1, kv.2.accessCount⟩)).take
        count.toNat).filterMap (fun v => lookup v.key t.items)) t := by
  obtain ⟨mu, name, items, tm0, ci, ld, ai, ad⟩ := t
  simp only at hfree
  subst hfree
  simp [MostAccessed, CacheTable.Lock, CacheTable.Unlock, RWMutex.Lock, RWMutex.Unlock,
    RWMutex.free, collect_eq]

/-- C10.  `MostAccessed(n)`, called with the table lock free on a table whose
keys are pairwise distinct, `sort.Sort` returning a permutation of its input
in which no element is `Less` than an earlier one: the call returns a list `r`
and leaves the table unchanged; `r` has min(max(n,0), Count()) elements; they
are the entries stored under pairwise distinct keys `ks` of the table; their
accessCounts are in non-increasing order; and every entry of the table under
a key outside `ks` has an accessCount at most that of every entry of `r`. -/
theorem MostAccessed_ranks_by_accessCount
    (sortSort : CacheItemPairList → CacheItemPairList) (n : Int) (t : CacheTable)
    (hperm : ∀ l, (sortSort l).Perm l)
    (hsorted : ∀ l, (sortSort l).Pairwise fun a b => ¬ CacheItemPairList.Less b a)
    (hfree : t.mu = RWMutex.free) (hnd : (keys t.items).Nodup) :
    ∃ (r : List CacheItem) (ks : List Key),
      MostAccessed sortSort n t = .done r t ∧
      Count t = .done t.items.length t ∧
      (r.length : Int) = min (max n 0) t.items.length ∧
      ks.Nodup ∧ ks.map (fun k => lookup k t.items) = r.map some ∧
      (r.map CacheItem.accessCount).Pairwise (fun a b => a ≥ b) ∧
      (∀ k item, lookup k t.items = some item → k ∉ ks →
        ∀ x ∈ r, item.accessCount ≤ x.accessCount) := by
  set p : CacheItemPairList := t.items.map fun kv => ⟨kv.1, kv.2.accessCount⟩ with hp
  set sorted := sortSort p with hsd
  set taken := sorted.take n.toNat with htk
  have hpk : p.map CacheItemPair.key = keys t.items := by
    simp [hp, keys, List.map_map, Function.comp_def]
  have hmemp : ∀ k item, lookup k t.items = some item → (⟨k, item.accessCount⟩ : CacheItemPair) ∈ p := by
    intro k item hl
    exact List.mem_map.mpr ⟨(k, item), mem_of_lookup hl, rfl⟩
  have hF1 : ∀ v ∈ sorted, ∃ item, lookup v.key t.items = some item ∧
      item.accessCount = v.AccessCount := by
    intro v hv
    have hv' : v ∈ p := (hperm p).mem_iff.mp hv
    obtain ⟨kv, hkv, rfl⟩ := List.mem_map.mp hv'
    exact ⟨kv.2, lookup_of_mem_nodup hnd hkv, rfl⟩
  have hsub : taken.Sublist sorted := List.take_sublist _ _
  obtain ⟨hlen, hks, hac⟩ := filterMap_lookup t.items taken
    (fun v hv => hF1 v (hsub.subset hv))
  refine ⟨taken.filterMap (fun v => lookup v.key t.items), taken.map CacheItemPair.key,
    MostAccessed_of_free sortSort n t hfree, Count_of_free t hfree, ?_, ?_, ?_, ?_, ?_⟩
  · rw [hlen, htk, List.length_take, (hperm p).length_eq, hp, List.length_map]
    omega
  · have h1 : (sorted.map CacheItemPair.key).Nodup := by
      have := ((hperm p).map CacheItemPair.key).nodup_iff
      rw [this, hpk]
      exact hnd
    exact (hsub.map CacheItemPair.key).nodup h1
  · rw [List.map_map]
    exact hks
  · rw [hac]
    have h1 : taken.Pairwise fun a b => ¬ CacheItemPairList.Less b a :=
      (hsorted p).sublist hsub
    rw [List.pairwise_map]
    refine h1.imp ?_
    intro a b hab
    unfold CacheItemPairList.Less at hab
    omega
  · intro k item hl hk x hx
    have hx' : x.accessCount ∈ taken.map CacheItemPair.AccessCount := by
      rw [← hac]
      exact List.mem_map_of_mem _ hx
    obtain ⟨v, hv, hvx⟩ := List.mem_map.mp hx'
    have hin : (⟨k, item.accessCount⟩ : CacheItemPair) ∈ sorted :=
      (hperm p).mem_iff.mpr (hmemp k item hl)
    rw [← List.take_append_drop n.toNat sorted] at hin
    rcases List.mem_append.mp hin with h | h
    · exact absurd (List.mem_map.mpr ⟨_, h, rfl⟩) hk
    · have hpw := hsorted p
      rw [← hsd, ← List.take_append_drop n.toNat sorted, List.pairwise_append] at hpw
      have := hpw.2.2 v hv _ h
      unfold CacheItemPairList.Less at this
      simp only at this
      omega

theorem insertionSortPairs_perm (l : CacheItemPairList) : (insertionSortPairs l).Perm l :=
  List.perm_insertionSort _ l

theorem insertionSortPairs_sorted (l : CacheItemPairList) :
    (insertionSortPairs l).Pairwise fun a b => ¬ CacheItemPairList.Less b a := by
  have hT : IsTotal CacheItemPair (fun a b => b.AccessCount ≤ a.AccessCount) :=
    ⟨fun a b => le_total b.AccessCount a.AccessCount⟩
  have hR : IsTrans CacheItemPair (fun a b => b.AccessCount ≤ a.AccessCount) :=
    ⟨fun a b c hab hbc => le_trans hbc hab⟩
  have h := List.sorted_insertionSort (fun a b : CacheItemPair => b.AccessCount ≤ a.AccessCount) l
  refine List.Pairwise.imp ?_ h
  intro a b hab
  unfold CacheItemPairList.Less
  omega

theorem MostAccessed_ranks_by_accessCount_witness :
    MostAccessed insertionSortPairs 2 rankedTable =
      .done [{ NewCacheItem 0 3 0 7 with accessCount := 9 },
             { NewCacheItem 0 1 0 7 with accessCount := 5 }] rankedTable ∧
    ∃ (r : List CacheItem) (ks : List Key),
      MostAccessed insertionSortPairs 2 rankedTable = .done r rankedTable ∧
      Count rankedTable = .done rankedTable.items.length rankedTable ∧
      (r.length : Int) = min (max 2 0) rankedTable.items.length ∧
      ks.Nodup ∧ ks.map (fun k => lookup k rankedTable.items) = r.map some ∧
      (r.map CacheItem.accessCount).Pairwise (fun a b => a ≥ b) ∧
      (∀ k item, lookup k rankedTable.items = some item → k ∉ ks →
        ∀ x ∈ r, item.accessCount ≤ x.accessCount) :=
  ⟨by decide,
    MostAccessed_ranks_by_accessCount insertionSortPairs 2 rankedTable insertionSortPairs_perm
      insertionSortPairs_sorted rfl (by decide)⟩

/-! ## `NotFoundAdd` -/

/-- C11, at the failing input.  `NotFoundAdd(1, 0, 7)` on a fresh table, where
key 1 is absent.  Without an addedItem callback the call stops on the call of
a nil function, holding the table lock.  With an addedItem callback it returns
true, but the table still has no entry for key 1, and the table lock is left
held.  (When the key is present the call returns false and changes nothing.) -/
theorem NotFoundAdd_absent_adds_nothing (env : FuncEnv) :
    lookup 1 emptyTable.items = none ∧
    NotFoundAdd env 0 1 0 7 emptyTable =
      .stuck .nilFunc { emptyTable with mu := ⟨true, 0⟩ } ∧
    NotFoundAdd idleEnv 0 1 0 7 callbackTable =
      .done true { callbackTable with mu := ⟨true, 0⟩ } ∧
    lookup 1 (NotFoundAdd idleEnv 0 1 0 7 callbackTable).table.items = none ∧
    (NotFoundAdd idleEnv 0 1 0 7 callbackTable).table.mu.w = true ∧
    NotFoundAdd env 0 1 0 7 oneEntryTable = .done false oneEntryTable := by
  refine ⟨rfl, rfl, rfl, rfl, rfl, rfl⟩

/-- C14, at the failing input.  `NotFoundAdd` on an absent key calls the
addedItem callback on a table whose exclusive lock the call itself holds; a
callback that re-enters the table (here it reads `Count()`) then waits for
that lock for ever.  `Add`, in the same situation, releases the lock first and
returns. -/
theorem NotFoundAdd_calls_back_under_lock (env : FuncEnv) :
    NotFoundAdd env 0 1 0 7 callbackTable =
      ((env.addedItem 0 (NewCacheItem 0 1 0 7) { callbackTable with mu := ⟨true, 0⟩ }).bind
        fun _ t2 => .done true t2) ∧
    NotFoundAdd reentrantEnv 0 1 0 7 callbackTable =
      .stuck .deadlock { callbackTable with mu := ⟨true, 0⟩ } ∧
    Add reentrantEnv 0 0 1 0 7 callbackTable =
      .done (NewCacheItem 0 1 0 7)
        { callbackTable with items := [(1, NewCacheItem 0 1 0 7)] } := by
  refine ⟨rfl, rfl, rfl⟩

/-- C19, at the failing input.  On the table that holds one entry added at
time 0 with a lifeSpan of 50ms, `Add(2, 10ms, 8)` at 70ms starts a sweep
(10ms is below the interval of 50ms).  The sweep holds the table lock when it
finds the entry of key 1 expired and calls `table.Delete`, which asks for the
same lock: neither the sweep nor the `Add` returns. -/
theorem Add_sweep_relocks_table (env : FuncEnv) :
    expirationCheck env 70000000
        { oneEntryTable with
          items := [(1, NewCacheItem 0 1 50000000 7), (2, NewCacheItem 70000000 2 10000000 8)] } =
      .stuck .deadlock
        { oneEntryTable with
          mu := ⟨true, 0⟩
          items := [(1, NewCacheItem 0 1 50000000 7), (2, NewCacheItem 70000000 2 10000000 8)]
          cleanupTimer := some ⟨50000000, false⟩ } ∧
    Add env 70000000 70000000 2 10000000 8 oneEntryTable =
      .stuck .deadlock
        { oneEntryTable with
          mu := ⟨true, 0⟩
          items := [(1, NewCacheItem 0 1 50000000 7), (2, NewCacheItem 70000000 2 10000000 8)]
          cleanupTimer := some ⟨50000000, false⟩ } ∧
    Delete env 1
        { oneEntryTable with
          mu := ⟨true, 0⟩
          items := [(1, NewCacheItem 0 1 50000000 7), (2, NewCacheItem 70000000 2 10000000 8)]
          cleanupTimer := some ⟨50000000, false⟩ } =
      .stuck .deadlock
        { oneEntryTable with
          mu := ⟨true, 0⟩
          items := [(1, NewCacheItem 0 1 50000000 7), (2, NewCacheItem 70000000 2 10000000 8)]
          cleanupTimer := some ⟨50000000, false⟩ } := by
  refine ⟨rfl, rfl, rfl⟩

/-- C20, at the failing inputs.  `Delete(2)` on a table with every lock free
returns the entry of key 2 with its read lock held: `deleteInternal` takes
`r.RLock()` and nothing releases it, so a later `KeepAlive` on that entry can
never take its lock.  `NotFoundAdd` on an absent key returns with the table
lock held, so the next operation on the table never starts. -/
theorem Delete_and_NotFoundAdd_leave_locks_held :
    twoEntryTable.Quiet ∧
    Delete idleEnv 2 twoEntryTable =
      .done (some { NewCacheItem 0 2 0 8 with mu := ⟨false, 1⟩ }, none)
        { twoEntryTable with items := remove 2 twoEntryTable.items } ∧
    ({ NewCacheItem 0 2 0 8 with mu := ⟨false, 1⟩ } : CacheItem).KeepAlive 5 = none ∧
    callbackTable.Quiet ∧
    NotFoundAdd idleEnv 0 1 0 7 callbackTable =
      .done true { callbackTable with mu := ⟨true, 0⟩ } ∧
    Count { callbackTable with mu := ⟨true, 0⟩ } =
      .stuck .deadlock { callbackTable with mu := ⟨true, 0⟩ } := by
  refine ⟨⟨rfl, by decide⟩, rfl, rfl, ⟨rfl, by decide⟩, rfl, rfl⟩

theorem Outcome.bind_assoc {α β γ : Type} (o : Outcome α) (f : α → CacheTable → Outcome β)
    (g : β → CacheTable → Outcome γ) :
    (o.bind f).bind g = o.bind fun a t => (f a t).bind g := by
  cases o <;> rfl

/-- C15.  `Add`, called with the table lock free and an addedItem callback
configured, calls the callback on a table `tcb` in which no table lock is held
and the key already maps to the new entry; everything else is as before the
call.  On that table a re-entrant `Count()` returns (and counts the new key),
and a re-entrant `table.Lock()`, with which a nested `Add` starts, is granted.
-/
theorem Add_calls_back_after_insert (env : FuncEnv) (now sweepNow : Time) (key : Key)
    (lifeSpan : Duration) (data : Data) (t : CacheTable) (h : Nat)
    (hfree : t.mu = RWMutex.free) (hcb : t.addedItem = some h) :
    ∃ tcb : CacheTable,
      tcb = { t with items := store key (NewCacheItem now key lifeSpan data) t.items } ∧
      Add env now sweepNow key lifeSpan data t =
        ((env.addedItem h (NewCacheItem now key lifeSpan data) tcb).bind fun _ t3 =>
          (if lifeSpan > 0 ∧ (t.cleanupInterval = 0 ∨ lifeSpan < t.cleanupInterval) then
            expirationCheck env sweepNow t3
          else .done () t3).bind fun _ t4 => .done (NewCacheItem now key lifeSpan data) t4) ∧
      tcb.mu = RWMutex.free ∧
      lookup key tcb.items = some (NewCacheItem now key lifeSpan data) ∧
      key ∈ keys tcb.items ∧
      Count tcb = .done tcb.items.length tcb ∧
      tcb.Lock = .done () { tcb with mu := ⟨true, 0⟩ } := by
  refine ⟨_, rfl, ?_, hfree, lookup_store_self _ _ _,
    mem_keys_of_lookup (lookup_store_self _ _ _), Count_of_free _ hfree, ?_⟩
  · obtain ⟨mu, name, items, tm0, ci, ld, ai, ad⟩ := t
    simp only at hfree hcb
    subst hfree hcb
    simp only [Add, addInternal, CacheTable.Lock, CacheTable.Unlock, RWMutex.Lock,
      RWMutex.Unlock, RWMutex.free, and_self, if_true, Outcome.bind_done, NewCacheItem]
    exact Outcome.bind_assoc _ _ _
  · simp [CacheTable.Lock, RWMutex.Lock, hfree, RWMutex.free]

theorem Add_calls_back_after_insert_witness :
    Add reentrantEnv 0 0 1 20000000000 7 callbackTable =
      .done (NewCacheItem 0 1 20000000000 7)
        { callbackTable with
          items := [(1, NewCacheItem 0 1 20000000000 7)]
          cleanupTimer := some ⟨20000000000, true⟩
          cleanupInterval := 20000000000 } ∧
    ∃ tcb : CacheTable,
      tcb = { callbackTable with
        items := store 1 (NewCacheItem 0 1 20000000000 7) callbackTable.items } ∧
      Add testEnv 0 0 1 20000000000 7 callbackTable =
        ((testEnv.addedItem 0 (NewCacheItem 0 1 20000000000 7) tcb).bind fun _ t3 =>
          (if (20000000000 : Duration) > 0 ∧
              (callbackTable.cleanupInterval = 0 ∨ 20000000000 < callbackTable.cleanupInterval) then
            expirationCheck testEnv 0 t3
          else .done () t3).bind fun _ t4 => .done (NewCacheItem 0 1 20000000000 7) t4) ∧
      tcb.mu = RWMutex.free ∧
      lookup 1 tcb.items = some (NewCacheItem 0 1 20000000000 7) ∧
      1 ∈ keys tcb.items ∧
      Count tcb = .done tcb.items.length tcb ∧
      tcb.Lock = .done () { tcb with mu := ⟨true, 0⟩ } :=
  ⟨by decide, Add_calls_back_after_insert testEnv 0 0 1 20000000000 7 callbackTable 0 rfl rfl⟩

/-! ## The sweep and the access metadata -/

theorem lookup_forgetAccess (k : Key) (m : Items) :
    lookup k (m.map fun p => (p.1, p.2.forgetAccess)) =
      (lookup k m).map CacheItem.forgetAccess := by
  induction m with
  | nil => rfl
  | cons p rest ih =>
    obtain ⟨k', v'⟩ := p
    by_cases hk : k' = k <;> simp [lookup, hk, ih]

theorem keys_forgetAccess (m : Items) :
    keys (m.map fun p => (p.1, p.2.forgetAccess)) = keys m := by
  simp [keys, List.map_map, Function.comp_def]

theorem store_of_lookup {k : Key} {v : CacheItem} {m : Items} (h : lookup k m = some v) :
    store k v m = m := by
  induction m with
  | nil => simp [lookup] at h
  | cons p rest ih =>
    obtain ⟨k', v'⟩ := p
    by_cases hk : k' = k
    · simp only [lookup, hk, if_true, Option.some.injEq] at h
      simp [store, hk, h]
    · simp only [lookup, hk, if_false] at h
      simp [store, hk, ih h]

theorem map_store (g : CacheItem → CacheItem) (k : Key) (v : CacheItem) (m : Items) :
    (store k v m).map (fun p => (p.1, g p.2)) = store k (g v) (m.map fun p => (p.1, g p.2)) := by
  induction m with
  | nil => rfl
  | cons p rest ih =>
    obtain ⟨k', v'⟩ := p
    by_cases hk : k' = k <;> simp [store, hk, ih]

/-- Under the table lock, the loop of the sweep commutes with blanking the
access metadata: it reads neither accessedON nor accessCount. -/
theorem sweepLoop_forgetAccess (env : FuncEnv) (now : Time) (t : CacheTable)
    (h : t.mu.w = true) :
    ∀ (ks : List Key) (s : Duration),
      (sweepLoop env now ks s t).forgetAccess = sweepLoop env now ks s t.forgetAccess := by
  intro ks
  induction ks with
  | nil => intro s; rfl
  | cons k rest ih =>
    intro s
    have hl' : lookup k t.forgetAccess.items = (lookup k t.items).map CacheItem.forgetAccess :=
      lookup_forgetAccess k t.items
    cases hl : lookup k t.items with
    | none =>
      rw [hl] at hl'
      simp only [sweepLoop, hl, hl', Option.map_none']
      exact ih s
    | some item =>
      rw [hl] at hl'
      simp only [Option.map_some'] at hl'
      have hmu : item.forgetAccess.mu = item.mu := rfl
      have hls : item.forgetAccess.lifeSpan = item.lifeSpan := rfl
      have hco : item.forgetAccess.createdOn = item.createdOn := rfl
      cases hm : item.mu.Lock with
      | none => simp only [sweepLoop, hl, hl', hmu, hm]; rfl
      | some m =>
        simp only [sweepLoop, hl, hl', hmu, hm, hls, hco]
        split_ifs with h1 h2 h3
        · exact ih s
        · rw [Delete_locked env k t h, Delete_locked env k t.forgetAccess h]
          rfl
        · exact ih _
        · exact ih s

/-- The sweep commutes with blanking the access metadata. -/
theorem expirationCheck_forgetAccess (env : FuncEnv) (now : Time) (t : CacheTable) :
    (expirationCheck env now t).forgetAccess = expirationCheck env now t.forgetAccess := by
  unfold expirationCheck CacheTable.Lock
  have hmu : t.forgetAccess.mu = t.mu := rfl
  cases hL : t.mu.Lock with
  | none => simp only [hmu, hL]; rfl
  | some m =>
    have hw : m.w = true := by
      unfold RWMutex.Lock at hL
      split_ifs at hL
      cases hL; rfl
    simp only [hmu, hL, Outcome.bind_done]
    have hloop := sweepLoop_forgetAccess env now
      { t with mu := m, cleanupTimer := t.cleanupTimer.map Timer.Stop } hw (keys t.items) 0
    have hkeys : keys t.forgetAccess.items = keys t.items := keys_forgetAccess t.items
    rw [hkeys]
    change _ = (sweepLoop env now (keys t.items) 0
      (CacheTable.forgetAccess
        { t with mu := m, cleanupTimer := t.cleanupTimer.map Timer.Stop })).bind _
    rw [← hloop]
    cases sweepLoop env now (keys t.items) 0
        { t with mu := m, cleanupTimer := t.cleanupTimer.map Timer.Stop } with
    | stuck f x => rfl
    | done s' t3 =>
      simp only [Outcome.forgetAccess, Outcome.bind_done, CacheTable.Unlock]
      split_ifs with hpos
      · cases hU : t3.mu.Unlock <;> simp [CacheTable.forgetAccess, hU, Outcome.forgetAccess]
      · cases hU : t3.mu.Unlock <;> simp [CacheTable.forgetAccess, hU, Outcome.forgetAccess]

theorem Value_hit_forgetAccess (env : FuncEnv) (now sweepNow : Time) (k : Key) (t : CacheTable)
    (r : CacheItem) (hw : t.mu.w = false) (hl : lookup k t.items = some r)
    (hmu : r.mu = RWMutex.free) :
    ∃ res t1, Value env now sweepNow k t = .done res t1 ∧ t1.forgetAccess = t.forgetAccess := by
  let r1 : CacheItem := { r with accessedON := now, accessCount := wrap64 (r.accessCount + 1) }
  refine ⟨(some r1, none), { t with items := store k r1 t.items }, ?_, ?_⟩
  · rw [Value_hit env now sweepNow k t hw r hl]
    simp only [CacheItem.KeepAlive, hmu, RWMutex.free, RWMutex.Lock, and_self, if_true, r1]
  · have hl' : lookup k (t.items.map fun p => (p.1, p.2.forgetAccess)) = some r.forgetAccess := by
      rw [lookup_forgetAccess, hl]; rfl
    simp only [CacheTable.forgetAccess]
    rw [map_store CacheItem.forgetAccess]
    have hr : CacheItem.forgetAccess r1 = r.forgetAccess := rfl
    rw [hr, store_of_lookup hl']

/-- A sequence of accesses to present keys, on a table whose write lock and
entry locks are free, returns and changes nothing but access metadata. -/
theorem accessAll_forgetAccess (env : FuncEnv) (t0 : CacheTable) (hw : t0.mu.w = false)
    (hq : ∀ p ∈ t0.items, p.2.mu = RWMutex.free) :
    ∀ (accesses : List (Time × Key)) (t : CacheTable),
      t.forgetAccess = t0.forgetAccess → (∀ a ∈ accesses, a.2 ∈ keys t0.items) →
      ∃ t1, accessAll env accesses t = .done () t1 ∧ t1.forgetAccess = t0.forgetAccess := by
  intro accesses
  induction accesses with
  | nil => intro t ht _; exact ⟨t, rfl, ht⟩
  | cons a rest ih =>
    intro t ht hk
    obtain ⟨now, k⟩ := a
    have hmem : k ∈ keys t0.items := hk (now, k) (List.mem_cons_self _ _)
    obtain ⟨r0, hr0⟩ := lookup_of_mem_keys hmem
    have hmu0 : r0.mu = RWMutex.free := hq _ (mem_of_lookup hr0)
    have hmut : t.mu = t0.mu := by
      have := congrArg CacheTable.mu ht
      exact this
    have hitems : (t.items.map fun p => (p.1, p.2.forgetAccess)) =
        (t0.items.map fun p => (p.1, p.2.forgetAccess)) := congrArg CacheTable.items ht
    have hlk : (lookup k t.items).map CacheItem.forgetAccess = some r0.forgetAccess := by
      rw [← lookup_forgetAccess, hitems, lookup_forgetAccess, hr0]; rfl
    cases hl : lookup k t.items with
    | none => rw [hl] at hlk; simp at hlk
    | some r =>
      rw [hl] at hlk
      simp only [Option.map_some', Option.some.injEq] at hlk
      have hmu : r.mu = RWMutex.free := by
        have : r.forgetAccess.mu = r0.forgetAccess.mu := congrArg CacheItem.mu hlk
        exact this.trans hmu0
      obtain ⟨res, t1, hv, ht1⟩ := Value_hit_forgetAccess env now now k t r
        (by rw [hmut]; exact hw) hl hmu
      obtain ⟨t2, hrun, ht2⟩ := ih t1 (ht1.trans ht)
        (fun a ha => hk a (List.mem_cons_of_mem _ ha))
      exact ⟨t2, by simp only [accessAll, hv, Outcome.bind_done, hrun], ht2⟩

theorem forgetAccess_eq_imp (o1 o2 : Outcome Unit) (h : o1.forgetAccess = o2.forgetAccess) :
    keys o1.table.items = keys o2.table.items ∧
      o1.table.cleanupInterval = o2.table.cleanupInterval ∧
      ((∃ u, o1 = .done () u) ↔ ∃ u, o2 = .done () u) := by
  cases o1 with
  | done a t1 =>
    cases o2 with
    | done b t2 =>
      simp only [Outcome.forgetAccess, Outcome.done.injEq, true_and] at h
      have hci : t1.cleanupInterval = t2.cleanupInterval := by
        have := congrArg CacheTable.cleanupInterval h
        exact this
      refine ⟨?_, hci, ⟨fun _ => ⟨t2, rfl⟩, fun _ => ⟨t1, rfl⟩⟩⟩
      have := congrArg (fun x => keys x.items) h
      simpa [CacheTable.forgetAccess, keys_forgetAccess, Outcome.table] using this
    | stuck f t2 => simp [Outcome.forgetAccess] at h
  | stuck f t1 =>
    cases o2 with
    | done b t2 => simp [Outcome.forgetAccess] at h
    | stuck g t2 =>
      simp only [Outcome.forgetAccess, Outcome.stuck.injEq] at h
      have hci : t1.cleanupInterval = t2.cleanupInterval := by
        have := congrArg CacheTable.cleanupInterval h.2
        exact this
      refine ⟨?_, hci, ⟨?_, ?_⟩⟩
      · have := congrArg (fun x => keys x.items) h.2
        simpa [CacheTable.forgetAccess, keys_forgetAccess, Outcome.table] using this
      · rintro ⟨u, hu⟩; cases hu
      · rintro ⟨u, hu⟩; cases hu

/-- C12.  Expiry is measured from createdOn.  On a table whose write lock and
entry locks are free, any sequence of accesses (`Value` on present keys, which
runs `KeepAlive`) returns and changes only accessedON and accessCount; and the
sweep at `now` on the table after the accesses does what it does on the table
before them: the two outcomes are equal up to accessedON and accessCount, so
the sweep returns in one case exactly when it returns in the other, leaves the
same keys in the table and records the same cleanupInterval. -/
theorem expirationCheck_ignores_accesses (env : FuncEnv) (now : Time) (t : CacheTable)
    (accesses : List (Time × Key)) (hw : t.mu.w = false)
    (hq : ∀ p ∈ t.items, p.2.mu = RWMutex.free) (hk : ∀ a ∈ accesses, a.2 ∈ keys t.items) :
    ∃ t1, accessAll env accesses t = .done () t1 ∧
      t1.forgetAccess = t.forgetAccess ∧
      (expirationCheck env now t1).forgetAccess = (expirationCheck env now t).forgetAccess ∧
      keys (expirationCheck env now t1).table.items =
        keys (expirationCheck env now t).table.items ∧
      (expirationCheck env now t1).table.cleanupInterval =
        (expirationCheck env now t).table.cleanupInterval ∧
      ((∃ u, expirationCheck env now t1 = .done () u) ↔
        ∃ u, expirationCheck env now t = .done () u) := by
  obtain ⟨t1, hrun, ht1⟩ := accessAll_forgetAccess env t hw hq accesses t rfl hk
  have heq : (expirationCheck env now t1).forgetAccess =
      (expirationCheck env now t).forgetAccess := by
    rw [expirationCheck_forgetAccess, expirationCheck_forgetAccess, ht1]
  exact ⟨t1, hrun, ht1, heq, forgetAccess_eq_imp _ _ heq⟩

theorem expirationCheck_ignores_accesses_witness :
    accessAll idleEnv [(10000000, 1), (40000000, 1)] oneEntryTable =
      .done ()
        { oneEntryTable with
          items := [(1, { NewCacheItem 0 1 50000000 7 with
            accessedON := 40000000, accessCount := 2 })] } ∧
    ∃ t1, accessAll idleEnv [(10000000, 1), (40000000, 1)] oneEntryTable = .done () t1 ∧
      t1.forgetAccess = oneEntryTable.forgetAccess ∧
      (expirationCheck idleEnv 45000000 t1).forgetAccess =
        (expirationCheck idleEnv 45000000 oneEntryTable).forgetAccess ∧
      keys (expirationCheck idleEnv 45000000 t1).table.items =
        keys (expirationCheck idleEnv 45000000 oneEntryTable).table.items ∧
      (expirationCheck idleEnv 45000000 t1).table.cleanupInterval =
        (expirationCheck idleEnv 45000000 oneEntryTable).table.cleanupInterval ∧
      ((∃ u, expirationCheck idleEnv 45000000 t1 = .done () u) ↔
        ∃ u, expirationCheck idleEnv 45000000 oneEntryTable = .done () u) :=
  ⟨by decide,
    expirationCheck_ignores_accesses idleEnv 45000000 oneEntryTable
      [(10000000, 1), (40000000, 1)] (by decide) (by decide) (by decide)⟩

/-- C13, at the failing input.  The entry of key 1 is created at time 0 with a
lifeSpan of 50ms and accessed (`Value`, hence `KeepAlive`) at 40ms.  At 60ms,
20ms after the access, the sweep still finds it expired, because it compares
`now.Sub(createdOn)` with the lifeSpan: it takes the deletion branch (and
stops there, on `table.Delete`).  Had the 50ms been counted from the access,
as for an entry created at 40ms, the sweep would have returned and scheduled
the next one 30ms later. -/
theorem KeepAlive_does_not_extend_lifeSpan (env : FuncEnv) :
    Value env 40000000 40000000 1 oneEntryTable =
      .done (some { NewCacheItem 0 1 50000000 7 with accessedON := 40000000, accessCount := 1 },
          none)
        { oneEntryTable with
          items := [(1, { NewCacheItem 0 1 50000000 7 with
            accessedON := 40000000, accessCount := 1 })] } ∧
    Time.Sub 60000000 40000000 < 50000000 ∧
    expired 60000000
      { NewCacheItem 0 1 50000000 7 with accessedON := 40000000, accessCount := 1 } ∧
    expirationCheck env 60000000
        { oneEntryTable with
          items := [(1, { NewCacheItem 0 1 50000000 7 with
            accessedON := 40000000, accessCount := 1 })] } =
      .stuck .deadlock
        { oneEntryTable with
          mu := ⟨true, 0⟩
          items := [(1, { NewCacheItem 0 1 50000000 7 with
            accessedON := 40000000, accessCount := 1 })]
          cleanupTimer := some ⟨50000000, false⟩ } ∧
    expirationCheck env 60000000
        { oneEntryTable with items := [(1, NewCacheItem 40000000 1 50000000 7)] } =
      .done ()
        { oneEntryTable with
          items := [(1, NewCacheItem 40000000 1 50000000 7)]
          cleanupTimer := some ⟨30000000, true⟩
          cleanupInterval := 30000000 } := by
  refine ⟨rfl, by decide, by decide, rfl, rfl⟩

/-! ## The interval recorded by the sweep -/

theorem Int.clamp64_range (d : Int) :
    minInt64 ≤ (if d < minInt64 then minInt64 else if maxInt64 < d then maxInt64 else d) ∧
      (if d < minInt64 then minInt64 else if maxInt64 < d then maxInt64 else d) ≤ maxInt64 := by
  unfold minInt64 maxInt64
  split_ifs <;> omega

theorem Time.Sub_range (t u : Time) : minInt64 ≤ Time.Sub t u ∧ Time.Sub t u ≤ maxInt64 :=
  Int.clamp64_range (t - u)

theorem Int.clamp64_nonneg (d : Int) (h : 0 ≤ d) :
    0 ≤ (if d < minInt64 then minInt64 else if maxInt64 < d then maxInt64 else d) := by
  unfold minInt64 maxInt64
  split_ifs <;> omega

theorem Time.Sub_nonneg {t u : Time} (h : u ≤ t) : 0 ≤ Time.Sub t u :=
  Int.clamp64_nonneg (t - u) (Int.sub_nonneg_of_le h)

theorem wrap64_sub_ne_zero (L a : Int) (h1 : L ≤ maxInt64) (h2 : minInt64 ≤ a) (h3 : a < L) :
    wrap64 (L - a) ≠ 0 := by
  unfold wrap64
  unfold minInt64 at h2
  unfold maxInt64 at h1
  omega

theorem wrap64_sub_eq (L a : Int) (h1 : L ≤ maxInt64) (h2 : 0 ≤ a) (h3 : a < L) :
    wrap64 (L - a) = L - a ∧ 0 < L - a := by
  unfold wrap64
  unfold maxInt64 at h1
  omega

/-- The remaining time of an entry that is not expired is never 0, the value
that stands for "nothing found yet". -/
theorem remaining_ne_zero {now : Time} {item : CacheItem} (hL : item.lifeSpan ≤ maxInt64)
    (hx : ¬ Time.Sub now item.createdOn ≥ item.lifeSpan) :
    wrap64 (item.lifeSpan - Time.Sub now item.createdOn) ≠ 0 :=
  wrap64_sub_ne_zero _ _ hL (Time.Sub_range now item.createdOn).1 (not_le.mp hx)

/-- The remaining time of an entry created before `now` that is not expired is
`lifeSpan - now.Sub(createdOn)`, without overflow, and positive. -/
theorem remaining_eq {now : Time} {item : CacheItem} (hL : item.lifeSpan ≤ maxInt64)
    (hc : item.createdOn ≤ now) (hx : ¬ Time.Sub now item.createdOn ≥ item.lifeSpan) :
    wrap64 (item.lifeSpan - Time.Sub now item.createdOn) =
        item.lifeSpan - Time.Sub now item.createdOn ∧
      0 < item.lifeSpan - Time.Sub now item.createdOn :=
  wrap64_sub_eq _ _ hL (Time.Sub_nonneg hc) (not_le.mp hx)

/-- What the loop of the sweep has computed when it reaches its end: no entry
it visited is expired, and `smallesDuration` is the least remaining time among
the value it started from and the visited entries of non-zero lifeSpan. -/
theorem sweepLoop_min (env : FuncEnv) (now : Time) (t : CacheTable) (h : t.mu.w = true)
    (hr : ∀ p ∈ t.items, p.2.lifeSpan ≤ maxInt64) :
    ∀ (ks : List Key) (s s' : Duration) (t' : CacheTable),
      sweepLoop env now ks s t = .done s' t' →
      (∀ k ∈ ks, ∀ item, lookup k t.items = some item → ¬ expired now item) ∧
      (s' = s ∨ ∃ k ∈ ks, ∃ item, lookup k t.items = some item ∧ item.lifeSpan ≠ 0 ∧
          s' = wrap64 (item.lifeSpan - Time.Sub now item.createdOn)) ∧
      (s ≠ 0 → s' ≠ 0 ∧ s' ≤ s) ∧
      (∀ k ∈ ks, ∀ item, lookup k t.items = some item → item.lifeSpan ≠ 0 →
          s' ≠ 0 ∧ s' ≤ wrap64 (item.lifeSpan - Time.Sub now item.createdOn)) := by
  intro ks
  induction ks with
  | nil =>
    intro s s' t' hd
    simp only [sweepLoop, Outcome.done.injEq] at hd
    refine ⟨by simp, Or.inl hd.1.symm, fun hs => ⟨by rw [← hd.1]; exact hs, by rw [hd.1]⟩,
      by simp⟩
  | cons k rest ih =>
    intro s s' t' hd
    cases hl : lookup k t.items with
    | none =>
      simp only [sweepLoop, hl] at hd
      obtain ⟨h1, h2, h3, h4⟩ := ih s s' t' hd
      refine ⟨?_, ?_, h3, ?_⟩
      · intro k' hk' item hi
        rcases List.mem_cons.mp hk' with e | e
        · rw [e, hl] at hi; cases hi
        · exact h1 k' e item hi
      · rcases h2 with e | ⟨k', hk', item, hi, hne, e⟩
        · exact Or.inl e
        · exact Or.inr ⟨k', List.mem_cons_of_mem _ hk', item, hi, hne, e⟩
      · intro k' hk' item hi hne
        rcases List.mem_cons.mp hk' with e | e
        · rw [e, hl] at hi; cases hi
        · exact h4 k' e item hi hne
    | some item =>
      have hL : item.lifeSpan ≤ maxInt64 := hr _ (mem_of_lookup hl)
      cases hm : item.mu.Lock with
      | none => simp [sweepLoop, hl, hm] at hd
      | some m =>
        simp only [sweepLoop, hl, hm] at hd
        split_ifs at hd with c1 c2 c3
        · -- lifeSpan = 0
          obtain ⟨h1, h2, h3, h4⟩ := ih s s' t' hd
          refine ⟨?_, ?_, h3, ?_⟩
          · intro k' hk' item' hi
            rcases List.mem_cons.mp hk' with e | e
            · rw [e, hl] at hi
              cases hi
              exact fun hx => hx.1 c1
            · exact h1 k' e item' hi
          · rcases h2 with e | ⟨k', hk', item', hi, hne, e⟩
            · exact Or.inl e
            · exact Or.inr ⟨k', List.mem_cons_of_mem _ hk', item', hi, hne, e⟩
          · intro k' hk' item' hi hne
            rcases List.mem_cons.mp hk' with e | e
            · rw [e, hl] at hi
              cases hi
              exact absurd c1 hne
            · exact h4 k' e item' hi hne
        · -- expired: `Delete` stops
          simp [Delete_locked env k t h] at hd
        · -- the remaining time becomes the smallest
          have hnz := remaining_ne_zero hL c2
          obtain ⟨h1, h2, h3, h4⟩ := ih _ s' t' hd
          have h3' := h3 hnz
          refine ⟨?_, ?_, ?_, ?_⟩
          · intro k' hk' item' hi
            rcases List.mem_cons.mp hk' with e | e
            · rw [e, hl] at hi
              cases hi
              exact fun hx => c2 hx.2
            · exact h1 k' e item' hi
          · right
            rcases h2 with e | ⟨k', hk', item', hi, hne, e⟩
            · exact ⟨k, List.mem_cons_self _ _, item, hl, c1, e⟩
            · exact ⟨k', List.mem_cons_of_mem _ hk', item', hi, hne, e⟩
          · intro hs
            refine ⟨h3'.1, ?_⟩
            rcases c3 with c3 | c3
            · exact absurd c3 hs
            · exact le_of_lt (lt_of_le_of_lt h3'.2 c3)
          · intro k' hk' item' hi hne
            rcases List.mem_cons.mp hk' with e | e
            · rw [e, hl] at hi
              cases hi
              exact h3'
            · exact h4 k' e item' hi hne
        · -- the smallest so far stays
          have hs : s ≠ 0 := fun e => c3 (Or.inl e)
          have hle : s ≤ wrap64 (item.lifeSpan - Time.Sub now item.createdOn) :=
            not_lt.mp (fun hlt => c3 (Or.inr hlt))
          obtain ⟨h1, h2, h3, h4⟩ := ih s s' t' hd
          have h3' := h3 hs
          refine ⟨?_, ?_, h3, ?_⟩
          · intro k' hk' item' hi
            rcases List.mem_cons.mp hk' with e | e
            · rw [e, hl] at hi
              cases hi
              exact fun hx => c2 hx.2
            · exact h1 k' e item' hi
          · rcases h2 with e | ⟨k', hk', item', hi, hne, e⟩
            · exact Or.inl e
            · exact Or.inr ⟨k', List.mem_cons_of_mem _ hk', item', hi, hne, e⟩
          · intro k' hk' item' hi hne
            rcases List.mem_cons.mp hk' with e | e
            · rw [e, hl] at hi
              cases hi
              exact ⟨h3'.1, le_trans h3'.2 hle⟩
            · exact h4 k' e item' hi hne

/-- What a sweep that returns has done: it found the lock free, its loop ran
to the end with some `smallesDuration`, which it recorded. -/
theorem expirationCheck_done_inv (env : FuncEnv) (now : Time) (t t' : CacheTable)
    (hd : expirationCheck env now t = .done () t') :
    t.mu = RWMutex.free ∧
    ∃ s', sweepLoop env now (keys t.items) 0
        { t with mu := ⟨true, 0⟩, cleanupTimer := t.cleanupTimer.map Timer.Stop } =
          .done s' { t with mu := ⟨true, 0⟩, cleanupTimer := t.cleanupTimer.map Timer.Stop } ∧
      t'.items = t.items ∧ t'.cleanupInterval = s' ∧ t'.mu = RWMutex.free ∧
      t'.addedItem = t.addedItem ∧ t'.aboutToDeleteItem = t.aboutToDeleteItem ∧
      t'.loadData = t.loadData := by
  unfold expirationCheck CacheTable.Lock at hd
  cases hL : t.mu.Lock with
  | none => simp [hL] at hd
  | some m =>
    have hm : t.mu = RWMutex.free ∧ m = ⟨true, 0⟩ := by
      cases hmu : t.mu with
      | mk w r =>
        rw [hmu] at hL
        unfold RWMutex.Lock at hL
        split_ifs at hL with hc
        cases hL
        simp only at hc
        exact ⟨by rw [hc.1, hc.2]; rfl, rfl⟩
    obtain ⟨hfree, rfl⟩ := hm
    refine ⟨hfree, ?_⟩
    simp only [hL, Outcome.bind_done] at hd
    rcases sweepLoop_locked env now
        { t with mu := ⟨true, 0⟩, cleanupTimer := t.cleanupTimer.map Timer.Stop } rfl
        (keys t.items) 0 with ⟨s', hs⟩ | hs
    · refine ⟨s', hs, ?_⟩
      simp only [hs, Outcome.bind_done, CacheTable.Unlock] at hd
      split_ifs at hd with hpos
      · simp only [RWMutex.Unlock, if_true, Outcome.done.injEq, true_and] at hd
        subst hd
        exact ⟨rfl, rfl, rfl, rfl, rfl, rfl⟩
      · simp only [RWMutex.Unlock, if_true, Outcome.done.injEq, true_and] at hd
        subst hd
        exact ⟨rfl, rfl, rfl, rfl, rfl, rfl⟩
    · simp [hs] at hd

/-- C16.  The table is a map (pairwise distinct keys) whose entries have an
`int64` lifeSpan and were created no later than `now`.  Whenever the sweep at
`now` returns, every entry has survived it and none is expired; if some entry
has a non-zero lifeSpan, cleanupInterval is strictly positive and is the least
`lifeSpan - now.Sub(createdOn)` over the entries of non-zero lifeSpan (it is
attained by one of them and is at most that of each); and cleanupInterval is
0 exactly when no entry has a non-zero lifeSpan.  The sweep does return when
no lock is held and no entry is expired. -/
theorem expirationCheck_records_min_remaining (env : FuncEnv) (now : Time) (t : CacheTable)
    (hnd : (keys t.items).Nodup)
    (hr : ∀ p ∈ t.items, p.2.lifeSpan ≤ maxInt64 ∧ p.2.createdOn ≤ now) :
    (∀ t', expirationCheck env now t = .done () t' →
      t'.items = t.items ∧ (∀ p ∈ t'.items, ¬ expired now p.2) ∧
      ((∃ p ∈ t'.items, p.2.lifeSpan ≠ 0) →
        0 < t'.cleanupInterval ∧
        (∃ p ∈ t'.items, p.2.lifeSpan ≠ 0 ∧
          t'.cleanupInterval = p.2.lifeSpan - Time.Sub now p.2.createdOn) ∧
        ∀ p ∈ t'.items, p.2.lifeSpan ≠ 0 →
          t'.cleanupInterval ≤ p.2.lifeSpan - Time.Sub now p.2.createdOn) ∧
      (t'.cleanupInterval = 0 ↔ ∀ p ∈ t'.items, p.2.lifeSpan = 0)) ∧
    (t.Quiet → (∀ p ∈ t.items, ¬ expired now p.2) →
      ∃ t', expirationCheck env now t = .done () t') := by
  constructor
  · intro t' hd
    obtain ⟨_, s', hloop, hitems, hci, _, _, _, _⟩ := expirationCheck_done_inv env now t t' hd
    obtain ⟨h1, h2, _, h4⟩ := sweepLoop_min env now
      { t with mu := ⟨true, 0⟩, cleanupTimer := t.cleanupTimer.map Timer.Stop } rfl
      (fun p hp => (hr p hp).1) (keys t.items) 0 s' _ hloop
    have hlive : ∀ p ∈ t.items, ¬ expired now p.2 := by
      intro p hp
      exact h1 p.1 (List.mem_map.mpr ⟨p, hp, rfl⟩) p.2 (lookup_of_mem_nodup hnd hp)
    have hrem : ∀ p ∈ t.items, p.2.lifeSpan ≠ 0 →
        wrap64 (p.2.lifeSpan - Time.Sub now p.2.createdOn) =
            p.2.lifeSpan - Time.Sub now p.2.createdOn ∧
          0 < p.2.lifeSpan - Time.Sub now p.2.createdOn := by
      intro p hp hne
      exact remaining_eq (hr p hp).1 (hr p hp).2 (fun hx => hlive p hp ⟨hne, hx⟩)
    have hpos : (∃ p ∈ t.items, p.2.lifeSpan ≠ 0) →
        0 < s' ∧
        (∃ p ∈ t.items, p.2.lifeSpan ≠ 0 ∧ s' = p.2.lifeSpan - Time.Sub now p.2.createdOn) ∧
        ∀ p ∈ t.items, p.2.lifeSpan ≠ 0 → s' ≤ p.2.lifeSpan - Time.Sub now p.2.createdOn := by
      rintro ⟨p, hp, hne⟩
      have hs' := h4 p.1 (List.mem_map.mpr ⟨p, hp, rfl⟩) p.2 (lookup_of_mem_nodup hnd hp) hne
      have hex : ∃ q ∈ t.items, q.2.lifeSpan ≠ 0 ∧
          s' = q.2.lifeSpan - Time.Sub now q.2.createdOn := by
        rcases h2 with e | ⟨k, _, item, hl, hne', e⟩
        · exact absurd e hs'.1
        · have hmem := mem_of_lookup hl
          exact ⟨(k, item), hmem, hne', e.trans (hrem (k, item) hmem hne').1⟩
      refine ⟨?_, hex, ?_⟩
      · obtain ⟨q, hq, hqne, e⟩ := hex
        rw [e]
        exact (hrem q hq hqne).2
      · intro q hq hqne
        have := (h4 q.1 (List.mem_map.mpr ⟨q, hq, rfl⟩) q.2 (lookup_of_mem_nodup hnd hq) hqne).2
        rw [(hrem q hq hqne).1] at this
        exact this
    rw [hitems, hci]
    refine ⟨rfl, hlive, hpos, ?_⟩
    constructor
    · intro hz p hp
      by_contra hne
      have := (hpos ⟨p, hp, hne⟩).1
      rw [hz] at this
      exact lt_irrefl _ this
    · intro hall
      rcases h2 with e | ⟨k, _, item, hl, hne', _⟩
      · exact e
      · exact absurd (hall (k, item) (mem_of_lookup hl)) hne'
  · intro hq hne
    obtain ⟨s', tm, hs⟩ := expirationCheck_done env now t hq hne
    exact ⟨_, hs⟩

theorem expirationCheck_records_min_remaining_witness :
    expirationCheck idleEnv 10000000 twoEntryTable =
      .done ()
        { twoEntryTable with
          cleanupTimer := some ⟨40000000, true⟩
          cleanupInterval := 40000000 } ∧
    ((∀ t', expirationCheck idleEnv 10000000 twoEntryTable = .done () t' →
      t'.items = twoEntryTable.items ∧ (∀ p ∈ t'.items, ¬ expired 10000000 p.2) ∧
      ((∃ p ∈ t'.items, p.2.lifeSpan ≠ 0) →
        0 < t'.cleanupInterval ∧
        (∃ p ∈ t'.items, p.2.lifeSpan ≠ 0 ∧
          t'.cleanupInterval = p.2.lifeSpan - Time.Sub 10000000 p.2.createdOn) ∧
        ∀ p ∈ t'.items, p.2.lifeSpan ≠ 0 →
          t'.cleanupInterval ≤ p.2.lifeSpan - Time.Sub 10000000 p.2.createdOn) ∧
      (t'.cleanupInterval = 0 ↔ ∀ p ∈ t'.items, p.2.lifeSpan = 0)) ∧
    (twoEntryTable.Quiet → (∀ p ∈ twoEntryTable.items, ¬ expired 10000000 p.2) →
      ∃ t', expirationCheck idleEnv 10000000 twoEntryTable = .done () t')) :=
  ⟨by decide,
    expirationCheck_records_min_remaining idleEnv 10000000 twoEntryTable (by decide)
      (by decide)⟩

/-! ## The sweep forced by `Add` -/

theorem Time.Sub_self (now : Time) : Time.Sub now now = 0 := by
  have h : now - now = 0 := Int.sub_self now
  unfold Time.Sub
  rw [h]
  decide

/-- `Add` with the table lock free and no addedItem callback: the entry is
stored, and a sweep follows exactly when the lifeSpan is positive and either
no interval is recorded or the lifeSpan is below it. -/
theorem Add_eq (env : FuncEnv) (now sweepNow : Time) (key : Key) (lifeSpan : Duration)
    (data : Data) (t : CacheTable) (hfree : t.mu = RWMutex.free) (hcb : t.addedItem = none) :
    Add env now sweepNow key lifeSpan data t =
      if lifeSpan > 0 ∧ (t.cleanupInterval = 0 ∨ lifeSpan < t.cleanupInterval) then
        (expirationCheck env sweepNow
          { t with items := store key (NewCacheItem now key lifeSpan data) t.items }).bind
          fun _ t2 => .done (NewCacheItem now key lifeSpan data) t2
      else
        .done (NewCacheItem now key lifeSpan data)
          { t with items := store key (NewCacheItem now key lifeSpan data) t.items } := by
  obtain ⟨mu, name, items, tm0, ci, ld, ai, ad⟩ := t
  simp only at hfree hcb
  subst hfree hcb
  have hk : (NewCacheItem now key lifeSpan data).key = key := rfl
  have hL : (NewCacheItem now key lifeSpan data).lifeSpan = lifeSpan := rfl
  simp only [Add, addInternal, CacheTable.Lock, CacheTable.Unlock, RWMutex.Lock, RWMutex.Unlock,
    RWMutex.free, and_self, if_true, Outcome.bind_done, hk, hL]
  split_ifs <;> rfl

/-- C18.  The table is a map with no lock held and no addedItem callback, its
recorded interval is not negative, and its entries have an `int64` lifeSpan
and were created no later than `now`.  For ttl > 0, `Add(key, ttl, data)` at
`now` runs a sweep exactly when the interval before the call is 0 or ttl is
below it; whenever the call returns, cleanupInterval is afterwards strictly
positive and at most ttl; and the call does return when no entry other than
the one being replaced is expired at `now`.  An `Add` with ttl = 0 runs no
sweep, whatever the clock reading and the entries, and leaves cleanupInterval
unchanged. -/
theorem Add_forces_sweep_for_short_ttl (env : FuncEnv) (now : Time) (key : Key)
    (ttl : Duration) (data : Data) (t : CacheTable) (hq : t.Quiet) (hcb : t.addedItem = none)
    (hnd : (keys t.items).Nodup) (httl : 0 < ttl ∧ ttl ≤ maxInt64)
    (hci : 0 ≤ t.cleanupInterval)
    (hr : ∀ p ∈ t.items, p.2.lifeSpan ≤ maxInt64 ∧ p.2.createdOn ≤ now) :
    (Add env now now key ttl data t =
      if t.cleanupInterval = 0 ∨ ttl < t.cleanupInterval then
        (expirationCheck env now
          { t with items := store key (NewCacheItem now key ttl data) t.items }).bind
          fun _ t2 => .done (NewCacheItem now key ttl data) t2
      else
        .done (NewCacheItem now key ttl data)
          { t with items := store key (NewCacheItem now key ttl data) t.items }) ∧
    (∀ item t', Add env now now key ttl data t = .done item t' →
      item = NewCacheItem now key ttl data ∧
      t'.items = store key (NewCacheItem now key ttl data) t.items ∧
      0 < t'.cleanupInterval ∧ t'.cleanupInterval ≤ ttl) ∧
    ((∀ p ∈ t.items, p.1 ≠ key → ¬ expired now p.2) →
      ∃ t', Add env now now key ttl data t = .done (NewCacheItem now key ttl data) t') ∧
    (∀ sweepNow, Add env now sweepNow key 0 data t =
      .done (NewCacheItem now key 0 data)
        { t with items := store key (NewCacheItem now key 0 data) t.items }) := by
  have hadd := Add_eq env now now key ttl data t hq.1 hcb
  have hgt : ttl > 0 := httl.1
  simp only [hgt, true_and] at hadd
  have hnd1 := nodup_keys_store key (NewCacheItem now key ttl data) hnd
  have hnew : ¬ expired now (NewCacheItem now key ttl data) := by
    intro hx
    have h2 : Time.Sub now now ≥ ttl := hx.2
    rw [Time.Sub_self] at h2
    exact absurd (lt_of_lt_of_le hgt h2) (lt_irrefl _)
  have hmem1 : ∀ p ∈ store key (NewCacheItem now key ttl data) t.items,
      p = (key, NewCacheItem now key ttl data) ∨ (p ∈ t.items ∧ p.1 ≠ key) := by
    intro p hp
    by_cases hk : p.1 = key
    · left
      have hl := lookup_of_mem_nodup hnd1 (show (p.1, p.2) ∈ _ from hp)
      rw [hk, lookup_store_self] at hl
      obtain ⟨pk, pv⟩ := p
      simp only at hk hl
      simp only [Option.some.injEq] at hl
      rw [hk, ← hl]
    · right
      rcases mem_store hp with e | e
      · rw [e] at hk; exact absurd rfl hk
      · exact ⟨e, hk⟩
  have hr1 : ∀ p ∈ store key (NewCacheItem now key ttl data) t.items,
      p.2.lifeSpan ≤ maxInt64 ∧ p.2.createdOn ≤ now := by
    intro p hp
    rcases hmem1 p hp with e | ⟨e, _⟩
    · rw [e]; exact ⟨httl.2, le_refl _⟩
    · exact hr p e
  refine ⟨hadd, ?_, ?_, ?_⟩
  · intro item t' hd
    rw [hadd] at hd
    by_cases hc : t.cleanupInterval = 0 ∨ ttl < t.cleanupInterval
    · -- the sweep ran on the table that holds the new entry
      rw [if_pos hc] at hd
      cases hs : expirationCheck env now
          { t with items := store key (NewCacheItem now key ttl data) t.items } with
      | stuck f x => simp [hs] at hd
      | done u t2 =>
        simp only [hs, Outcome.bind_done, Outcome.done.injEq] at hd
        obtain ⟨hitem, ht2⟩ := hd
        subst ht2
        obtain ⟨_, s', hloop, hitems, hci', _⟩ := expirationCheck_done_inv env now _ _ hs
        obtain ⟨h1, h2, _, h4⟩ := sweepLoop_min env now
          { t with mu := ⟨true, 0⟩,
                   items := store key (NewCacheItem now key ttl data) t.items,
                   cleanupTimer := t.cleanupTimer.map Timer.Stop } rfl
          (fun p hp => (hr1 p hp).1)
          (keys (store key (NewCacheItem now key ttl data) t.items)) 0 s' _ hloop
        have hlk : lookup key (store key (NewCacheItem now key ttl data) t.items) =
            some (NewCacheItem now key ttl data) := lookup_store_self _ _ _
        have hs' := h4 key (mem_keys_of_lookup hlk) _ hlk (ne_of_gt hgt)
        have hremnew : wrap64 ((NewCacheItem now key ttl data).lifeSpan -
            Time.Sub now (NewCacheItem now key ttl data).createdOn) = ttl := by
          have := (@remaining_eq now (NewCacheItem now key ttl data) httl.2 (le_refl now)
            (fun hx => hnew ⟨ne_of_gt hgt, hx⟩)).1
          rw [this]
          show ttl - Time.Sub now now = ttl
          rw [Time.Sub_self, sub_zero]
        rw [hremnew] at hs'
        have hpos : 0 < s' := by
          rcases h2 with e | ⟨k, hk, item', hl, hne', e⟩
          · exact absurd e hs'.1
          · have hmem := mem_of_lookup hl
            have hrem := remaining_eq (hr1 _ hmem).1 (hr1 _ hmem).2
              (fun hx => h1 k hk item' hl ⟨hne', hx⟩)
            rw [e, hrem.1]
            exact hrem.2
        refine ⟨hitem.symm, hitems, ?_, ?_⟩
        · rw [hci']; exact hpos
        · rw [hci']; exact hs'.2
    · -- no sweep: the recorded interval is positive and at most ttl
      rw [if_neg hc] at hd
      simp only [Outcome.done.injEq] at hd
      obtain ⟨hitem, ht2⟩ := hd
      subst ht2
      have h0 : t.cleanupInterval ≠ 0 := fun e => hc (Or.inl e)
      have hle : t.cleanupInterval ≤ ttl := not_lt.mp (fun h => hc (Or.inr h))
      exact ⟨hitem.symm, rfl, lt_of_le_of_ne hci (Ne.symm h0), hle⟩
  · intro hne
    by_cases hc : t.cleanupInterval = 0 ∨ ttl < t.cleanupInterval
    · rw [if_pos hc] at hadd
      have hne1 : ∀ p ∈ store key (NewCacheItem now key ttl data) t.items,
          ¬ expired now p.2 := by
        intro p hp
        rcases hmem1 p hp with e | ⟨e, hk⟩
        · rw [e]; exact hnew
        · exact hne p e hk
      have hq1 : CacheTable.Quiet
          { t with items := store key (NewCacheItem now key ttl data) t.items } := by
        refine ⟨hq.1, ?_⟩
        intro p hp
        rcases hmem1 p hp with e | ⟨e, _⟩
        · rw [e]; rfl
        · exact hq.2 p e
      obtain ⟨s0, tm0, hdone⟩ := expirationCheck_done env now _ hq1 hne1
      exact ⟨_, by rw [hadd, hdone]; rfl⟩
    · rw [if_neg hc] at hadd
      exact ⟨_, hadd⟩
  · intro sweepNow
    have h0 := Add_eq env now sweepNow key 0 data t hq.1 hcb
    have hlt : ¬ ((0 : Duration) > 0 ∧ (t.cleanupInterval = 0 ∨ 0 < t.cleanupInterval)) :=
      fun h => lt_irrefl _ h.1
    rw [if_neg hlt] at h0
    exact h0

theorem Add_forces_sweep_for_short_ttl_witness :
    Add idleEnv 20000000 20000000 2 10000000 8 oneEntryTable =
      .done (NewCacheItem 20000000 2 10000000 8)
        { oneEntryTable with
          items := [(1, NewCacheItem 0 1 50000000 7), (2, NewCacheItem 20000000 2 10000000 8)]
          cleanupTimer := some ⟨10000000, true⟩
          cleanupInterval := 10000000 } ∧
    ((Add idleEnv 20000000 20000000 2 10000000 8 oneEntryTable =
      if oneEntryTable.cleanupInterval = 0 ∨ 10000000 < oneEntryTable.cleanupInterval then
        (expirationCheck idleEnv 20000000
          { oneEntryTable with
            items := store 2 (NewCacheItem 20000000 2 10000000 8) oneEntryTable.items }).bind
          fun _ t2 => .done (NewCacheItem 20000000 2 10000000 8) t2
      else
        .done (NewCacheItem 20000000 2 10000000 8)
          { oneEntryTable with
            items := store 2 (NewCacheItem 20000000 2 10000000 8) oneEntryTable.items }) ∧
    (∀ item t', Add idleEnv 20000000 20000000 2 10000000 8 oneEntryTable = .done item t' →
      item = NewCacheItem 20000000 2 10000000 8 ∧
      t'.items = store 2 (NewCacheItem 20000000 2 10000000 8) oneEntryTable.items ∧
      0 < t'.cleanupInterval ∧ t'.cleanupInterval ≤ 10000000) ∧
    ((∀ p ∈ oneEntryTable.items, p.1 ≠ 2 → ¬ expired 20000000 p.2) →
      ∃ t', Add idleEnv 20000000 20000000 2 10000000 8 oneEntryTable =
        .done (NewCacheItem 20000000 2 10000000 8) t') ∧
    (∀ sweepNow, Add idleEnv 20000000 sweepNow 2 0 8 oneEntryTable =
      .done (NewCacheItem 20000000 2 0 8)
        { oneEntryTable with
          items := store 2 (NewCacheItem 20000000 2 0 8) oneEntryTable.items })) :=
  ⟨by decide,
    Add_forces_sweep_for_short_ttl idleEnv 20000000 2 10000000 8 oneEntryTable
      ⟨rfl, by decide⟩ rfl (by decide) (by decide) (by decide) (by decide)⟩

/-! ## Histories: when is a sweep scheduled -/

theorem mem_remove {k : Key} {m : Items} {p : Key × CacheItem} (h : p ∈ remove k m) :
    p ∈ m := by
  induction m with
  | nil => simp [remove] at h
  | cons q rest ih =>
    obtain ⟨k', v'⟩ := q
    by_cases hk : k' = k
    · simp only [remove, hk, if_true] at h
      exact List.mem_cons_of_mem _ (ih h)
    · simp only [remove, hk, if_false, List.mem_cons] at h
      rcases h with h | h
      · simp [h]
      · exact List.mem_cons_of_mem _ (ih h)

theorem nodup_keys_remove (k : Key) {m : Items} (hnd : (keys m).Nodup) :
    (keys (remove k m)).Nodup := by
  induction m with
  | nil => simp [remove, keys]
  | cons q rest ih =>
    obtain ⟨k', v'⟩ := q
    simp only [keys, List.map_cons, List.nodup_cons] at hnd
    by_cases hk : k' = k
    · simp only [remove, hk, if_true]
      exact ih hnd.2
    · simp only [remove, hk, if_false, keys, List.map_cons, List.nodup_cons]
      refine ⟨?_, ih hnd.2⟩
      intro hmem
      obtain ⟨p, hp, hpk⟩ := List.mem_map.mp hmem
      exact hnd.1 (List.mem_map.mpr ⟨p, mem_remove hp, hpk⟩)

/-- A sweep that returns on a table of the shape of histories leaves a table
that satisfies the invariant of histories, whatever interval was recorded
before. -/
theorem SweepInv_expirationCheck (env : FuncEnv) (now : Time) (t t' : CacheTable)
    (hshape : HistoryShape t) (hd : expirationCheck env now t = .done () t') : SweepInv t' := by
  obtain ⟨hq, hai, had, hnd, hent⟩ := hshape
  obtain ⟨_, s', hloop, hitems, hci, hmu, hai', had', _⟩ :=
    expirationCheck_done_inv env now t t' hd
  obtain ⟨_, _, _, h4⟩ := sweepLoop_min env now
    { t with mu := ⟨true, 0⟩, cleanupTimer := t.cleanupTimer.map Timer.Stop } rfl
    (fun p hp => (hent p hp).2) (keys t.items) 0 s' _ hloop
  refine ⟨⟨⟨hmu, ?_⟩, hai'.trans hai, had'.trans had, by rw [hitems]; exact hnd,
    by rw [hitems]; exact hent⟩, ?_⟩
  · rw [hitems]; exact hq.2
  · rw [hitems, hci]
    rintro ⟨p, hp, hpos⟩
    exact (h4 p.1 (List.mem_map.mpr ⟨p, hp, rfl⟩) p.2 (lookup_of_mem_nodup hnd hp)
      (ne_of_gt hpos)).1

/-- Storing a new entry keeps the shape of histories. -/
theorem HistoryShape_store (now : Time) (key : Key) (lifeSpan : Duration) (data : Data)
    (t : CacheTable) (hL : lifeSpan ≤ maxInt64) (hshape : HistoryShape t) :
    HistoryShape { t with items := store key (NewCacheItem now key lifeSpan data) t.items } := by
  obtain ⟨hq, hai, had, hnd, hent⟩ := hshape
  refine ⟨⟨hq.1, ?_⟩, hai, had, nodup_keys_store _ _ hnd, ?_⟩
  · intro p hp
    rcases mem_store hp with e | e
    · rw [e]; rfl
    · exact hq.2 p e
  · intro p hp
    rcases mem_store hp with e | e
    · rw [e]; exact ⟨rfl, hL⟩
    · exact hent p e

/-- An `Add` with an `int64` lifeSpan that returns keeps the invariant. -/
theorem SweepInv_Add (env : FuncEnv) (now sweepNow : Time) (key : Key) (lifeSpan : Duration)
    (data : Data) (t t' : CacheTable) (item : CacheItem) (hL : lifeSpan ≤ maxInt64)
    (hinv : SweepInv t)
    (hd : Add env now sweepNow key lifeSpan data t = .done item t') : SweepInv t' := by
  obtain ⟨hshape, hsched⟩ := hinv
  have hshape1 := HistoryShape_store now key lifeSpan data t hL hshape
  rw [Add_eq env now sweepNow key lifeSpan data t hshape.1.1 hshape.2.1] at hd
  by_cases hc : lifeSpan > 0 ∧ (t.cleanupInterval = 0 ∨ lifeSpan < t.cleanupInterval)
  · rw [if_pos hc] at hd
    cases hs : expirationCheck env sweepNow
        { t with items := store key (NewCacheItem now key lifeSpan data) t.items } with
    | stuck f x => simp [hs] at hd
    | done u t2 =>
      simp only [hs, Outcome.bind_done, Outcome.done.injEq] at hd
      rw [← hd.2]
      exact SweepInv_expirationCheck env sweepNow _ t2 hshape1 hs
  · rw [if_neg hc] at hd
    simp only [Outcome.done.injEq] at hd
    rw [← hd.2]
    refine ⟨hshape1, ?_⟩
    rintro ⟨p, hp, hpos⟩
    show t.cleanupInterval ≠ 0
    rcases mem_store hp with e | e
    · intro h0
      apply hc
      have hpos' : 0 < lifeSpan := by rw [e] at hpos; exact hpos
      exact ⟨hpos', Or.inl h0⟩
    · exact hsched ⟨p, e, hpos⟩

/-- A `Delete` that returns keeps the invariant. -/
theorem SweepInv_Delete (env : FuncEnv) (key : Key) (t t' : CacheTable)
    (res : Option CacheItem × Option Error) (hinv : SweepInv t)
    (hd : Delete env key t = .done res t') : SweepInv t' := by
  obtain ⟨hshape, hsched⟩ := hinv
  obtain ⟨hq, hai, had, hnd, hent⟩ := hshape
  cases hl : lookup key t.items with
  | none =>
    rw [Delete_absent env key t hq.1 hl] at hd
    simp only [Outcome.done.injEq] at hd
    rw [← hd.2]
    exact ⟨⟨hq, hai, had, hnd, hent⟩, hsched⟩
  | some r =>
    have hmem := mem_of_lookup hl
    have hrw : r.mu.w = false := by rw [hq.2 _ hmem]; rfl
    have hexp : r.aboutToExpire = none := (hent _ hmem).1
    rw [Delete_present env key t r hq.1 hl hrw
      (fun h hh => by rw [had] at hh; cases hh)
      (fun h hh => by rw [hexp] at hh; cases hh)] at hd
    simp only [Outcome.done.injEq] at hd
    rw [← hd.2]
    refine ⟨⟨⟨hq.1, fun p hp => hq.2 p (mem_remove hp)⟩, hai, had, nodup_keys_remove key hnd,
      fun p hp => hent p (mem_remove hp)⟩, ?_⟩
    rintro ⟨p, hp, hpos⟩
    exact hsched ⟨p, mem_remove hp, hpos⟩

/-- A `Flush` that returns keeps the invariant. -/
theorem SweepInv_Flush (t t' : CacheTable) (hinv : SweepInv t)
    (hd : Flush t = .done () t') : SweepInv t' := by
  obtain ⟨⟨hq, hai, had, _, _⟩, _⟩ := hinv
  rw [Flush_of_free t hq.1] at hd
  simp only [Outcome.done.injEq, true_and] at hd
  rw [← hd]
  refine ⟨⟨⟨hq.1, ?_⟩, hai, had, ?_, ?_⟩, ?_⟩
  · intro p hp; simp at hp
  · simp [keys]
  · intro p hp; simp at hp
  · rintro ⟨p, hp, _⟩; simp at hp

/-- Every step of a history that returns keeps the invariant. -/
theorem SweepInv_step (env : FuncEnv) (op : Op) (t t' : CacheTable) (hop : op.inRange)
    (hinv : SweepInv t) (hd : step env op t = .done () t') : SweepInv t' := by
  cases op with
  | add now sweepNow key lifeSpan data =>
    simp only [step] at hd
    cases ha : Add env now sweepNow key lifeSpan data t with
    | stuck f x => simp [ha] at hd
    | done item t1 =>
      simp only [ha, Outcome.bind_done, Outcome.done.injEq, true_and] at hd
      rw [← hd]
      exact SweepInv_Add env now sweepNow key lifeSpan data t t1 item hop.2 hinv ha
  | delete key =>
    simp only [step] at hd
    cases ha : Delete env key t with
    | stuck f x => simp [ha] at hd
    | done res t1 =>
      simp only [ha, Outcome.bind_done, Outcome.done.injEq, true_and] at hd
      rw [← hd]
      exact SweepInv_Delete env key t t1 res hinv ha
  | flush => exact SweepInv_Flush t t' hinv hd
  | sweep now => exact SweepInv_expirationCheck env now t t' hinv.1 hd

/-- Every history that returns keeps the invariant. -/
theorem SweepInv_run (env : FuncEnv) :
    ∀ (ops : List Op) (t t' : CacheTable), (∀ op ∈ ops, op.inRange) → SweepInv t →
      run env ops t = .done () t' → SweepInv t' := by
  intro ops
  induction ops with
  | nil =>
    intro t t' _ hinv hd
    simp only [run, Outcome.done.injEq, true_and] at hd
    rw [← hd]; exact hinv
  | cons op rest ih =>
    intro t t' hops hinv hd
    simp only [run] at hd
    cases hs : step env op t with
    | stuck f x => simp [hs] at hd
    | done u t1 =>
      simp only [hs, Outcome.bind_done] at hd
      exact ih t1 t' (fun o ho => hops o (List.mem_cons_of_mem _ ho))
        (SweepInv_step env op t t1 (hops op (List.mem_cons_self _ _)) hinv hs) hd

/-- C17, counterexamples.  After `Add(1, 50ms, 7)` and `Delete(1)` on a fresh
table a sweep is still scheduled (cleanupInterval is 50ms) although the table
has no entry at all.  After `Add(1, -5, 7)` on a fresh table the table has an
entry of non-zero lifeSpan and no sweep is scheduled. -/
theorem scheduled_iff_finite_entry_fails :
    (∃ t', run idleEnv [.add 0 0 1 50000000 7, .delete 1] emptyTable = .done () t' ∧
      ¬ (t'.cleanupInterval ≠ 0 ↔ ∃ p ∈ t'.items, p.2.lifeSpan ≠ 0)) ∧
    (∃ t', run idleEnv [.add 0 0 1 (-5) 7] emptyTable = .done () t' ∧
      ¬ (t'.cleanupInterval ≠ 0 ↔ ∃ p ∈ t'.items, p.2.lifeSpan ≠ 0)) := by
  constructor
  · refine ⟨{ emptyTable with cleanupTimer := some ⟨50000000, true⟩,
                               cleanupInterval := 50000000 }, by decide, ?_⟩
    intro h
    obtain ⟨p, hp, _⟩ := h.mp (by decide)
    simp [emptyTable] at hp
  · refine ⟨{ emptyTable with items := [(1, NewCacheItem 0 1 (-5) 7)] }, by decide, ?_⟩
    intro h
    exact h.mpr ⟨(1, NewCacheItem 0 1 (-5) 7), by simp, by decide⟩ rfl

/-- C17, amended.  In every table reached from an empty table (lock free, no
add or delete callback) by a history of `Add` (with `int64` lifeSpans),
`Delete`, `Flush` and sweeps, each of which returns: if at least one entry has
a positive lifeSpan, then a sweep is scheduled (cleanupInterval is not 0). -/
theorem reachable_positive_lifeSpan_scheduled (env : FuncEnv) (ops : List Op)
    (t0 t' : CacheTable) (hfree : t0.mu = RWMutex.free) (hempty : t0.items = [])
    (hai : t0.addedItem = none) (had : t0.aboutToDeleteItem = none)
    (hops : ∀ op ∈ ops, op.inRange) (hrun : run env ops t0 = .done () t') :
    (∃ p ∈ t'.items, 0 < p.2.lifeSpan) → t'.cleanupInterval ≠ 0 := by
  have hinv0 : SweepInv t0 := by
    refine ⟨⟨⟨hfree, ?_⟩, hai, had, ?_, ?_⟩, ?_⟩
    · intro p hp; rw [hempty] at hp; simp at hp
    · rw [hempty]; simp [keys]
    · intro p hp; rw [hempty] at hp; simp at hp
    · rintro ⟨p, hp, _⟩; rw [hempty] at hp; simp at hp
  exact (SweepInv_run env ops t0 t' hops hinv0 hrun).2

theorem reachable_positive_lifeSpan_scheduled_witness :
    run idleEnv [.add 0 0 1 50000000 7, .add 10000000 10000000 2 0 8, .delete 2,
        .sweep 20000000] emptyTable =
      .done ()
        { emptyTable with
          items := [(1, NewCacheItem 0 1 50000000 7)]
          cleanupTimer := some ⟨30000000, true⟩
          cleanupInterval := 30000000 } ∧
    ((∃ p ∈ ({ emptyTable with
          items := [(1, NewCacheItem 0 1 50000000 7)]
          cleanupTimer := some ⟨30000000, true⟩
          cleanupInterval := 30000000 } : CacheTable).items, 0 < p.2.lifeSpan) →
      ({ emptyTable with
          items := [(1, NewCacheItem 0 1 50000000 7)]
          cleanupTimer := some ⟨30000000, true⟩
          cleanupInterval := 30000000 } : CacheTable).cleanupInterval ≠ 0) :=
  ⟨by decide,
    reachable_positive_lifeSpan_scheduled idleEnv
      [.add 0 0 1 50000000 7, .add 10000000 10000000 2 0 8, .delete 2, .sweep 20000000]
      emptyTable _ rfl rfl rfl rfl (by decide) (by decide)⟩
end Cache
